import Mathlib

/-!
Verification model of `scripts/consolidate_node_requirements.py` from the
ConsistentAppearance repository.

The script reads a JSON list of `{repo, commit}` descriptors, fetches each
repository's `requirements.txt` (resolving a missing commit via the GitHub
API default branch), recursively follows `git+https://` requirement lines,
merges version specifiers per package name by intersection, and writes the
sorted consolidated manifest.

The embedding below translates the script's functions into pure Lean
functions.  Network traffic is modelled by an explicit oracle (`Net`);
recursion through discovered repositories is modelled with an explicit fuel
parameter (the Python call stack has no such bound; theorems about
termination show the result is independent of the fuel once it is large
enough).  The state record `St` carries the three mutable containers of the
script (`dependency_dict`, `url_requirements`, `visited_repos`) together
with the observable effects (log lines printed, network requests issued).

Third-party library behaviour used by the script (`packaging.requirements`,
`packaging.specifiers`, `urllib.parse`, `re`) is modelled to the depth the
script exercises: a requirement is a package name with a comma-separated
list of version specifiers (extras, environment markers, direct-URL
references and pre-release handling are outside the model; versions are
modelled as dotted numeric release segments).
-/

namespace Consolidate

/-! ### Python string primitives -/

/-- Characters removed by Python's `str.strip()`. -/
def isPySpace (c : Char) : Bool :=
  c = ' ' || c = '\t' || c = '\n' || c = '\r' || c = '\x0b' || c = '\x0c'

/-- `s.strip()`. -/
def pyStrip (s : String) : String :=
  String.mk (((s.toList.dropWhile isPySpace).reverse.dropWhile isPySpace).reverse)

/-- `s.startswith(pre)` (also models `re.match` anchoring at the start). -/
def startsWithS (s pre : String) : Bool :=
  pre.toList.isPrefixOf s.toList

/-- `s.lower()` (ASCII, as `packaging` names are ASCII). -/
def pyLower (s : String) : String :=
  String.mk (s.toList.map Char.toLower)

/-- Python string comparison on character lists: lexicographic by code
point. -/
def lexLe : List Char → List Char → Bool
  | [], _ => true
  | _ :: _, [] => false
  | a :: as, b :: bs =>
    if a.toNat < b.toNat then true
    else if b.toNat < a.toNat then false
    else lexLe as bs

/-- Python `<=` on strings (the order `sorted` uses). -/
def strLe (a b : String) : Bool := lexLe a.toList b.toList

/-- `strLe` as a relation, for the sorting lemmas. -/
def strLeP (a b : String) : Prop := strLe a b = true

instance : DecidableRel strLeP := fun a b =>
  inferInstanceAs (Decidable (strLe a b = true))

/-- Python `sorted` on strings. -/
def sortedStrings (l : List String) : List String :=
  List.insertionSort strLeP l

/-- One step of `str.replace`: fuel-indexed scan replacing every
non-overlapping occurrence of `pat`, left to right. -/
def pyReplaceGo (pat rep : List Char) : Nat → List Char → List Char
  | 0, cs => cs
  | _ + 1, [] => []
  | f + 1, c :: cs =>
    if pat.isPrefixOf (c :: cs) && !pat.isEmpty then
      rep ++ pyReplaceGo pat rep f (List.drop pat.length (c :: cs))
    else
      c :: pyReplaceGo pat rep f cs

/-- `s.replace(pat, rep)`. -/
def pyReplace (s pat rep : String) : String :=
  String.mk (pyReplaceGo pat.toList rep.toList (s.toList.length + 1) s.toList)

/-- Split a character list at the first occurrence of `sub`, returning the
part before it and the part after it. -/
def splitFirstSub : List Char → List Char → Option (List Char × List Char)
  | [], sub => if sub.isEmpty then some ([], []) else none
  | c :: cs, sub =>
    if sub.isPrefixOf (c :: cs) then some ([], List.drop sub.length (c :: cs))
    else
      match splitFirstSub cs sub with
      | some (a, b) => some (c :: a, b)
      | none => none

/-- Whether `sub` occurs in `s`. -/
def containsSub (s sub : List Char) : Bool :=
  (splitFirstSub s sub).isSome

/-- `str.split(sep)` for a single-character separator. -/
def splitOnChar (sep : Char) : List Char → List (List Char)
  | [] => [[]]
  | c :: cs =>
    match splitOnChar sep cs with
    | [] => [[]]
    | g :: gs => if c = sep then [] :: g :: gs else (c :: g) :: gs

/-! ### `urllib.parse` fragments used by the script -/

/-- The `path` component of `urlparse`, to the depth the script needs:
fragment and query are cut off, and when a `scheme://netloc` head is
present everything up to the first following `/` is dropped. -/
def urlPath (u : String) : String :=
  let noFrag := (u.toList.takeWhile (· ≠ '#')).takeWhile (· ≠ '?')
  match splitFirstSub noFrag "://".toList with
  | some (_, after) => String.mk (after.dropWhile (· ≠ '/'))
  | none => String.mk noFrag

/-- `urlparse(u).path.strip('/').split('/')`. -/
def pathParts (u : String) : List String :=
  let p := (urlPath u).toList
  let stripped := ((p.dropWhile (· = '/')).reverse.dropWhile (· = '/')).reverse
  (splitOnChar '/' stripped).map String.mk

/-- `scheme://netloc` head of a URL (used by `urljoin` for root-relative
references). -/
def schemeNetloc (u : String) : String :=
  match splitFirstSub u.toList "://".toList with
  | some (before, after) =>
      String.mk (before ++ "://".toList ++ after.takeWhile (· ≠ '/'))
  | none => ""

/-- `base` up to and including its last `/` (the directory part used by
`urljoin` for relative references). -/
def dirOf (base : String) : String :=
  String.mk ((base.toList.reverse.dropWhile (· ≠ '/')).reverse)

/-- `urljoin(base, rel)` for the reference shapes this script produces: an
absolute `rel` wins, a root-relative `rel` replaces the whole path,
otherwise `rel` is resolved against the directory of `base` (which the
script always ends with `/`). -/
def urljoinModel (base rel : String) : String :=
  if containsSub rel.toList "://".toList then rel
  else if startsWithS rel "/" then schemeNetloc base ++ rel
  else dirOf base ++ rel

/-! ### `packaging` model: version specifiers -/

/-- PEP 440 comparison operators accepted by `packaging.specifiers`. -/
inductive Op
  | lt | le | gt | ge | eq | ne | compat | arb
  deriving DecidableEq, Repr

/-- `str(Specifier)` renders the operator followed by the version text. -/
def Op.render : Op → String
  | .lt => "<"
  | .le => "<="
  | .gt => ">"
  | .ge => ">="
  | .eq => "=="
  | .ne => "!="
  | .compat => "~="
  | .arb => "==="

/-- A single version specifier: an operator and the version text exactly as
written in the requirement line. -/
structure SpecAtom where
  op : Op
  ver : String
  deriving DecidableEq, Repr

def SpecAtom.render (a : SpecAtom) : String := a.op.render ++ a.ver

/-- Numeric value of a digit run (`0` for non-numeric segments, matching
the model's release-segment abstraction). -/
def natOfDigits : List Char → Nat
  | [] => 0
  | c :: cs => natOfDigits cs + (c.toNat - 48) * 10 ^ cs.length

/-- Version text split into numeric release segments (the model of
versions; epochs, pre-releases and local segments are outside the model). -/
def parseSegs (s : String) : List Nat :=
  (splitOnChar '.' s.toList).map natOfDigits

/-- PEP 440 release comparison: segment-wise, with missing segments padded
by zeros (`1.0` equals `1.0.0`). -/
def segCmp : List Nat → List Nat → Ordering
  | [], [] => .eq
  | [], b :: bs => if b = 0 then segCmp [] bs else .lt
  | a :: as, [] => if a = 0 then segCmp as [] else .gt
  | a :: as, b :: bs =>
    if a < b then .lt else if b < a then .gt else segCmp as bs
  termination_by a b => a.length + b.length

/-- Whether version `v` satisfies one specifier (release-segment
semantics; the `~=` prefix test and `===` are approximated on segments). -/
def SpecAtom.sat (a : SpecAtom) (v : List Nat) : Bool :=
  let w := parseSegs a.ver
  match a.op with
  | .lt => segCmp v w == .lt
  | .le => segCmp v w == .lt || segCmp v w == .eq
  | .gt => segCmp v w == .gt
  | .ge => segCmp v w == .gt || segCmp v w == .eq
  | .eq => segCmp v w == .eq
  | .ne => !(segCmp v w == .eq)
  | .compat =>
      (segCmp v w == .gt || segCmp v w == .eq) &&
        segCmp (v.take (w.length - 1)) (w.take (w.length - 1)) == .eq
  | .arb => segCmp v w == .eq

/-- `packaging.specifiers.SpecifierSet`: a frozen set of specifiers,
modelled as a duplicate-free list (a frozenset is unordered and the script
only ever renders it sorted, so the list order is unobservable). -/
abbrev SpecSet := List SpecAtom

/-- `SpecifierSet.__and__` (the merge at line 71 of the script): the union
of the two underlying specifier sets, which constrains to versions
satisfying both operands. -/
def specAnd (s t : SpecSet) : SpecSet :=
  s ++ t.filter (fun a => decide (a ∉ s))

/-- `version in specifier_set`: every member specifier must be satisfied. -/
def specContains (s : SpecSet) (v : List Nat) : Prop :=
  ∀ a ∈ s, a.sat v = true

instance (s : SpecSet) (v : List Nat) : Decidable (specContains s v) :=
  inferInstanceAs (Decidable (∀ a ∈ s, a.sat v = true))

/-! ### `packaging.requirements.Requirement` model -/

/-- Name characters of a PEP 508 package name. -/
def isNameChar (c : Char) : Bool :=
  c.isAlphanum || c = '.' || c = '_' || c = '-'

/-- Characters allowed in the version text of a specifier. -/
def isVerChar (c : Char) : Bool :=
  c.isAlphanum || c = '.' || c = '*' || c = '+' || c = '!' || c = '-' || c = '_'

def dropWs (cs : List Char) : List Char := cs.dropWhile isPySpace

/-- Parse one comparison operator (longest match first). -/
def parseOpChars : List Char → Option (Op × List Char)
  | '=' :: '=' :: '=' :: rest => some (.arb, rest)
  | '=' :: '=' :: rest => some (.eq, rest)
  | '!' :: '=' :: rest => some (.ne, rest)
  | '<' :: '=' :: rest => some (.le, rest)
  | '>' :: '=' :: rest => some (.ge, rest)
  | '~' :: '=' :: rest => some (.compat, rest)
  | '<' :: rest => some (.lt, rest)
  | '>' :: rest => some (.gt, rest)
  | _ => none

/-- Parse one `op version` specifier. -/
def parseAtom (cs : List Char) : Option (SpecAtom × List Char) :=
  match parseOpChars (dropWs cs) with
  | none => none
  | some (op, rest) =>
    let rest := dropWs rest
    let ver := rest.takeWhile isVerChar
    if ver.isEmpty then none
    else some (⟨op, String.mk ver⟩, rest.dropWhile isVerChar)

/-- Parse a comma-separated specifier list (fuel-indexed; each step consumes
at least one character, so `length + 1` fuel always suffices). -/
def parseAtomsGo : Nat → List Char → List SpecAtom → Option (List SpecAtom)
  | 0, _, _ => none
  | f + 1, cs, acc =>
    match parseAtom cs with
    | none => none
    | some (a, rest) =>
      match dropWs rest with
      | [] => some (acc ++ [a])
      | ',' :: rest2 => parseAtomsGo f rest2 (acc ++ [a])
      | _ => none

def parseAtoms (cs : List Char) : Option (List SpecAtom) :=
  parseAtomsGo (cs.length + 1) cs []

/-- A parsed requirement: lower-cased name (line 65 of the script applies
`.lower()`) and its specifier set. -/
structure Req where
  name : String
  specs : SpecSet
  deriving DecidableEq

/-- `packaging.requirements.Requirement(line)` for the name+specifier core
of PEP 508: a name starting and ending with an alphanumeric character,
optionally followed by a comma-separated specifier list.  Lines using
extras, parenthesised specifiers, direct-URL references or environment
markers are outside the model (the script's inputs do not use them); any
line this parser rejects raises `InvalidRequirement` in the script. -/
def parseReq (line : String) : Option Req :=
  match line.toList with
  | [] => none
  | c :: _ =>
    if c.isAlphanum then
      let cs := line.toList
      let nameChars := cs.takeWhile isNameChar
      match nameChars.getLast? with
      | none => none
      | some lastc =>
        if lastc.isAlphanum then
          let rest := dropWs (cs.dropWhile isNameChar)
          if rest.isEmpty then
            some ⟨pyLower (String.mk nameChars), []⟩
          else
            match parseAtoms rest with
            | some atoms => some ⟨pyLower (String.mk nameChars), atoms.dedup⟩
            | none => none
        else none
    else none

/-! ### `parse_git_requirement` (lines 95-109) -/

/-- `re.match(r'git\+(https://[^@]+)(?:@([^#]+))?(?:#egg=([\w\d\.]+))?', line)`
followed by stripping a `.git` suffix from the URL.  `none` models the
Python return value `(None, None)`. -/
def parseGitRequirement (line : String) : Option (String × Option String) :=
  let cs := line.toList
  if "git+https://".toList.isPrefixOf cs then
    let rest := cs.drop 12
    let host := rest.takeWhile (· ≠ '@')
    if host.isEmpty then none
    else
      let url0 := "https://" ++ String.mk host
      let url :=
        if ".git".toList.isSuffixOf url0.toList then
          String.mk (url0.toList.take (url0.toList.length - 4))
        else url0
      let rest2 := rest.dropWhile (· ≠ '@')
      let commit :=
        match rest2 with
        | '@' :: cs2 =>
          let c := cs2.takeWhile (· ≠ '#')
          if c.isEmpty then none else some (String.mk c)
        | _ => none
      some (url, commit)
  else none

/-! ### Network oracle and traversal state -/

/-- Response to the GitHub metadata API request: HTTP status and the
`default_branch` field of the JSON body (`none` when the field is absent,
in which case the script's `.get('default_branch', 'main')` yields
`"main"`). -/
structure ApiResp where
  status : Nat
  defaultBranch : Option String
  deriving DecidableEq, Repr

/-- Response to the raw `requirements.txt` request: HTTP status and
`response.text.splitlines()`. -/
structure RawResp where
  status : Nat
  lines : List String
  deriving DecidableEq, Repr

/-- The fixed mapping of network requests to responses.  `none` models a
raised exception (network error). -/
structure Net where
  api : String → Option ApiResp
  raw : String → Option RawResp

/-- `visited_repos` elements: the tuple `(repo_url, commit_hash)` exactly as
passed to `process_requirements_from_repo` — for top-level entries the
commit is a (possibly empty) string, for recursively discovered ones it may
be Python `None` (modelled `none`). -/
abbrev RepoKey := String × Option String

/-- The script's mutable containers plus its observable effects.
`deps` is `dependency_dict` (a Python dict: insertion-ordered association
list with unique keys), `urlReqs` is `url_requirements` (a set: modelled as
a duplicate-free list), `visited` is `visited_repos`, `log` collects the
`print` diagnostics, and `fetched`/`rawFetches` record the manifest
requests issued (key at the moment of the request, and raw URL). -/
structure St where
  deps : List (String × SpecSet)
  urlReqs : List String
  visited : List RepoKey
  log : List String
  fetched : List RepoKey
  rawFetches : List String
  deriving DecidableEq

/-- The three empty containers created at lines 126-128. -/
def St.init : St := ⟨[], [], [], [], [], []⟩

/-- `name in dependency_dict` / `dependency_dict[name]`. -/
def lookupDep (d : List (String × SpecSet)) (name : String) : Option SpecSet :=
  (d.find? (fun p => p.1 == name)).map (·.2)

/-- `dependency_dict[name] = specs`: update in place when the key exists,
otherwise append (Python dicts preserve insertion order). -/
def setDep (d : List (String × SpecSet)) (name : String) (specs : SpecSet) :
    List (String × SpecSet) :=
  if d.any (fun p => p.1 == name) then
    d.map (fun p => if p.1 == name then (name, specs) else p)
  else d ++ [(name, specs)]

/-- Lines 67-74: merge by specifier intersection when the name exists, else
insert. -/
def mergeDep (d : List (String × SpecSet)) (name : String) (specs : SpecSet) :
    List (String × SpecSet) :=
  match lookupDep d name with
  | some existing => setDep d name (specAnd existing specs)
  | none => setDep d name specs

/-- Truthiness of the `commit_hash` argument (`None` or `""` are falsy). -/
def commitFalsy : Option String → Bool
  | none => true
  | some s => s == ""

/-- Line 18: the GitHub metadata API URL for a repository. -/
def apiUrlOf (repoUrl : String) : String :=
  let parts := pathParts repoUrl
  "https://api.github.com/repos/" ++ parts.headD "" ++ "/" ++ (parts.drop 1).headD ""

/-- `get_default_branch` (lines 11-30), returning the result together with
the diagnostics it prints.  `none` models the Python return value `None`
(invalid repository URL). -/
def getDefaultBranch (net : Net) (repoUrl : String) : Option String × List String :=
  if (pathParts repoUrl).length < 2 then
    (none, ["Invalid repository URL: " ++ repoUrl])
  else
    match net.api (apiUrlOf repoUrl) with
    | some r =>
      if r.status = 200 then (some (r.defaultBranch.getD "main"), [])
      else
        (some "main",
         ["Failed to fetch default branch for " ++ repoUrl ++ ": HTTP " ++
          toString r.status])
    | none => (some "main", ["Error fetching default branch for " ++ repoUrl])

/-- Lines 44-49: the commit actually used for the fetch.  When the incoming
`commit_hash` is falsy it is replaced by `get_default_branch`; a falsy
result of that (Python `None`, or an empty `default_branch` field) makes
the script skip the repository, modelled by `none`. -/
def resolveCommit (net : Net) (url : String) (c : Option String) : Option String :=
  if commitFalsy c then
    match (getDefaultBranch net url).1 with
    | none => none
    | some s => if s == "" then none else some s
  else c

/-- Lines 52-53: the raw manifest URL for a repository at a commit. -/
def rawUrlOf (url commit : String) : String :=
  urljoinModel (pyReplace url "github.com" "raw.githubusercontent.com" ++ "/")
    (commit ++ "/requirements.txt")

/-- The manifest lines processing a key iterates over: empty unless the
resolution and the fetch both succeed with HTTP 200.  (Used to state the
traversal graph; `repoStep` below produces exactly these lines.) -/
def fetchLines (net : Net) (url : String) (c : Option String) : List String :=
  match resolveCommit net url c with
  | none => []
  | some commit =>
    match net.raw (rawUrlOf url commit) with
    | some r => if r.status = 200 then r.lines else []
    | none => []

/-- Outcome of the non-recursive head of `process_requirements_from_repo`:
either the call returns without iterating manifest lines, or it reaches the
`for req_line in requirements` loop. -/
inductive FetchOutcome
  | earlyExit (st : St)
  | runLines (lines : List String) (st : St)

/-- The state carried by either outcome. -/
def FetchOutcome.state : FetchOutcome → St
  | .earlyExit st => st
  | .runLines _ st => st

/-- The diagnostics printed by the default-branch resolution (empty when
the commit is truthy and no resolution happens). -/
def dbLogOf (net : Net) (url : String) (c : Option String) : List String :=
  if commitFalsy c then (getDefaultBranch net url).2 else []

/-- Lines 33-58 and 87-93 of `process_requirements_from_repo`: the guard on
a falsy URL, the visited check, marking visited *before* fetching, commit
resolution, and the manifest fetch with its diagnostics. -/
def repoStep (net : Net) (url : String) (c : Option String) (st : St) : FetchOutcome :=
  if url == "" then .earlyExit st
  else if (url, c) ∈ st.visited then .earlyExit st
  else
    match resolveCommit net url c with
    | none =>
      .earlyExit { st with
        visited := st.visited ++ [(url, c)],
        log := (st.log ++ dbLogOf net url c) ++
          ["Skipping repository due to missing commit and default branch: " ++ url] }
    | some commit =>
      match net.raw (rawUrlOf url commit) with
      | none =>
        .earlyExit { st with
          visited := st.visited ++ [(url, c)],
          log := (st.log ++ dbLogOf net url c) ++
            ["Error fetching requirements.txt from " ++ url],
          fetched := st.fetched ++ [(url, c)],
          rawFetches := st.rawFetches ++ [rawUrlOf url commit] }
      | some r =>
        if r.status = 200 then
          .runLines r.lines { st with
            visited := st.visited ++ [(url, c)],
            log := st.log ++ dbLogOf net url c,
            fetched := st.fetched ++ [(url, c)],
            rawFetches := st.rawFetches ++ [rawUrlOf url commit] }
        else
          .earlyExit { st with
            visited := st.visited ++ [(url, c)],
            log := (st.log ++ dbLogOf net url c) ++
              ["No requirements.txt found in " ++ url ++ " at " ++ commit ++
               " (HTTP " ++ toString r.status ++ ")"],
            fetched := st.fetched ++ [(url, c)],
            rawFetches := st.rawFetches ++ [rawUrlOf url commit] }

/-- Classification of one manifest line (the body of the loop at lines
59-86): skip blanks/comments, merge parseable requirements, recurse into
matching `git+` source links, collect everything else verbatim.  The Python
guard `git_repo_url not in visited_repos` compares a string against a set
of `(url, commit)` tuples and is therefore always true; only the
truthiness test on the URL is effective. -/
inductive LineAction
  | skip
  | addDep (name : String) (specs : SpecSet)
  | recurse (url : String) (commit : Option String)
  | addOpaque (raw : String)
  deriving DecidableEq

def classifyLine (line : String) : LineAction :=
  if pyStrip line == "" || startsWithS (pyStrip line) "#" then .skip
  else
    match parseReq (pyStrip line) with
    | some r => .addDep r.name r.specs
    | none =>
      if startsWithS (pyStrip line) "git+" then
        match parseGitRequirement (pyStrip line) with
        | some (g, gc) => if g == "" then .skip else .recurse g gc
        | none => .skip
      else .addOpaque (pyStrip line)

/-- The recursion key contributed by one manifest line, if any. -/
def lineKey (line : String) : Option RepoKey :=
  match classifyLine line with
  | .recurse g gc => some (g, gc)
  | _ => none

/-- The repository references a key's manifest recurses into (the edges of
the traversal graph). -/
def gitSuccs (net : Net) (k : RepoKey) : List RepoKey :=
  (fetchLines net k.1 k.2).filterMap lineKey

mutual

/-- `process_requirements_from_repo` (lines 32-93).  The Python function
has no fuel; the fuel argument is an embedding artifact bounding the
recursion (every mutual call consumes one unit, so the recursion is
structural and the functions compute).  The termination theorem below
shows the result is independent of the fuel once it is large enough. -/
def processRepo (net : Net) (fuel : Nat) (url : String) (c : Option String)
    (st : St) : St :=
  match fuel with
  | 0 => st
  | f + 1 =>
    match repoStep net url c st with
    | .earlyExit st' => st'
    | .runLines lines st' => processLines net f lines st'

/-- The `for req_line in requirements` loop. -/
def processLines (net : Net) (fuel : Nat) (lines : List String) (st : St) : St :=
  match fuel with
  | 0 => st
  | f + 1 =>
    match lines with
    | [] => st
    | l :: ls => processLines net f ls (processLine net f l st)

/-- One iteration of the loop body (lines 60-86). -/
def processLine (net : Net) (fuel : Nat) (line : String) (st : St) : St :=
  match fuel with
  | 0 => st
  | f + 1 =>
    match classifyLine line with
    | .skip => st
    | .addDep name specs => { st with deps := mergeDep st.deps name specs }
    | .recurse g gc => processRepo net f g gc st
    | .addOpaque raw =>
      { st with
        urlReqs := if raw ∈ st.urlReqs then st.urlReqs else st.urlReqs ++ [raw] }

end

/-! ### `consolidate_requirements` (lines 111-152) -/

/-- JSON values as produced by `json.load`. -/
inductive Json
  | null
  | bool (b : Bool)
  | num (n : Int)
  | str (s : String)
  | arr (elems : List Json)
  | obj (fields : List (String × Json))

/-- Python truthiness of a JSON value. -/
def Json.truthy : Json → Bool
  | .null => false
  | .bool b => b
  | .num n => n != 0
  | .str s => s != ""
  | .arr l => !l.isEmpty
  | .obj l => !l.isEmpty

/-- `dict.get(key)` on an object parsed by `json.load` (a duplicate key
keeps its last value). -/
def Json.getField (fields : List (String × Json)) (k : String) : Option Json :=
  (fields.reverse.find? (fun p => p.1 == k)).map (·.2)

/-- An uncaught Python exception (`AttributeError`/`TypeError`); CPython
then terminates the process with exit status 1. -/
inductive PyError
  | uncaught
  deriving DecidableEq, Repr

/-- Lines 130-137: one iteration of the loop over the input list.  A
non-dict element crashes at `repo.get`, a non-string `commit` value crashes
at `.strip()`, and a truthy non-string `repo` value crashes inside
`process_requirements_from_repo` (at `urlparse` or `.replace`). -/
def processEntry (net : Net) (fuel : Nat) (entry : Json) (st : St) :
    Except PyError St :=
  match entry with
  | .obj fields =>
    match (Json.getField fields "commit").getD (.str "") with
    | .str c =>
      if ((Json.getField fields "repo").getD .null).truthy then
        match (Json.getField fields "repo").getD .null with
        | .str u => .ok (processRepo net fuel u (some (pyStrip c)) st)
        | _ => .error .uncaught
      else
        .ok { st with
          log := st.log ++ ["Invalid repository entry (missing 'repo' key)"] }
    | _ => .error .uncaught
  | _ => .error .uncaught

/-- `str(SpecifierSet)`: the member specifiers rendered and sorted. -/
def renderSpecSet (s : SpecSet) : String :=
  String.intercalate "," (sortedStrings (s.map SpecAtom.render))

/-- Lines 141-145: one output line, `name` followed by its specifier when
the specifier set is non-empty (`if specifier:`), else the bare name. -/
def emitLine (p : String × SpecSet) : String :=
  if p.2.isEmpty then p.1 else p.1 ++ renderSpecSet p.2

/-- Lines 139-150: build the consolidated lines and sort them before
writing. -/
def emitLines (deps : List (String × SpecSet)) : List String :=
  sortedStrings (deps.map emitLine)

/-- The observable result of a run: the process exit status, the final
in-memory state, and the lines written to the output file (`none` when the
run aborts before writing). -/
structure RunResult where
  exitCode : Nat
  st : St
  output : Option (List String)
  deriving DecidableEq

/-- `consolidate_requirements` (lines 111-152).  The input is the result of
`open`+`json.load` (`Except.error` models a read/parse failure, which the
script catches and turns into `sys.exit(1)`, as it does a non-list value);
an uncaught exception while looping over the entries also ends the process
with exit status 1 and no output file. -/
def consolidateRequirements (net : Net) (fuel : Nat)
    (input : Except String Json) : RunResult :=
  match input with
  | .error _ => ⟨1, St.init, none⟩
  | .ok j =>
    match j with
    | .arr repos =>
      match repos.foldlM (fun st e => processEntry net fuel e st) St.init with
      | .error _ => ⟨1, St.init, none⟩
      | .ok st => ⟨0, st, some (emitLines st.deps)⟩
    | _ => ⟨1, St.init, none⟩

/-! ### Predicates and abstractions used by the specification theorems -/

/-- The API query for a repository's default branch fails: network error or
non-200 status. -/
def apiFailed (net : Net) (repoUrl : String) : Prop :=
  match net.api (apiUrlOf repoUrl) with
  | none => True
  | some r => r.status ≠ 200

instance (net : Net) (u : String) : Decidable (apiFailed net u) := by
  unfold apiFailed
  match net.api (apiUrlOf u) with
  | none => exact inferInstanceAs (Decidable True)
  | some r => exact inferInstanceAs (Decidable (r.status ≠ 200))

/-- Number of keys of a finite universe `U` not yet visited (the decreasing
measure of the traversal). -/
def unvisitedCard (U : Finset RepoKey) (st : St) : Nat :=
  (U.filter (fun k => k ∉ st.visited)).card

/-- The fetch bookkeeping invariant: no key is fetched twice, and every
fetched key was marked visited (the script marks visited at line 40, before
the fetch at line 56). -/
def FetchInv (st : St) : Prop :=
  st.visited.Nodup ∧ st.fetched.Nodup ∧ ∀ k ∈ st.fetched, k ∈ st.visited

/-- The containers only grow during traversal. -/
def StMono (st st' : St) : Prop :=
  st.visited ⊆ st'.visited ∧ st.fetched ⊆ st'.fetched ∧
    st.rawFetches ⊆ st'.rawFetches

/-- Processing one parsed requirement line into `dependency_dict`
(lines 64-74). -/
def applyReq (d : List (String × SpecSet)) (r : Req) : List (String × SpecSet) :=
  mergeDep d r.name r.specs

/-- The dictionary viewed as the mapping it denotes: package name to the
*set* of recorded specifiers (Python compares `SpecifierSet`s as frozen
sets). -/
def depFinMap (d : List (String × SpecSet)) : String → Option (Finset SpecAtom) :=
  fun name => (lookupDep d name).map List.toFinset

/-- The abstract effect of `applyReq` on the denoted mapping. -/
def finStep (m : String → Option (Finset SpecAtom)) (r : Req) :
    String → Option (Finset SpecAtom) :=
  fun name =>
    if name = r.name then
      match m r.name with
      | some ex => some (ex ∪ r.specs.toFinset)
      | none => some r.specs.toFinset
    else m name

/-- Input-list entries on which the loop at lines 130-137 raises an
uncaught exception: non-dict elements, a non-string `commit` value, or a
truthy non-string `repo` value. -/
def badEntry : Json → Bool
  | .obj fields =>
    (match (Json.getField fields "commit").getD (.str "") with
     | .str _ => false
     | _ => true) ||
    (match (Json.getField fields "repo").getD .null with
     | .str _ => false
     | v => v.truthy)
  | _ => true

/-- Inputs on which the process ends with exit status 1: unreadable input,
a non-list value, or a list containing an entry the loop crashes on. -/
def fatalInput : Except String Json → Prop
  | .error _ => True
  | .ok (.arr l) => ∃ e ∈ l, badEntry e = true
  | .ok _ => True

/-! ### Concrete fixtures for counterexamples and witnesses -/

/-- A network where every request fails. -/
def trivNet : Net := ⟨fun _ => none, fun _ => none⟩

/-- The input `[{"repo": "https://github.com/a/b", "commit": "main"}]`. -/
def demoInputAB : Except String Json :=
  .ok (.arr [.obj [("repo", .str "https://github.com/a/b"), ("commit", .str "main")]])

/-- Network for the sorted-output example: `a/b`'s manifest at `main` is
`foo>=1.0\nbar==2.0`. -/
def demoNetSorted : Net :=
  ⟨fun _ => some ⟨200, some "main"⟩,
   fun u =>
     if u == "https://raw.githubusercontent.com/a/b/main/requirements.txt" then
       some ⟨200, ["foo>=1.0", "bar==2.0"]⟩
     else some ⟨404, []⟩⟩

/-- Network where `a/b`'s manifest is the single opaque line `-e .`. -/
def demoNetOpaque : Net :=
  ⟨fun _ => some ⟨200, some "main"⟩,
   fun u =>
     if u == "https://raw.githubusercontent.com/a/b/main/requirements.txt" then
       some ⟨200, ["-e ."]⟩
     else some ⟨404, []⟩⟩

/-- Input listing the same repository twice: once with an empty commit and
once pinned to `main` (which is also its default branch). -/
def demoInputDouble : Except String Json :=
  .ok (.arr
    [.obj [("repo", .str "https://github.com/a/b"), ("commit", .str "")],
     .obj [("repo", .str "https://github.com/a/b"), ("commit", .str "main")]])

/-- Network for the double-fetch counterexample: the API reports default
branch `main`, and the manifest at `main` is empty. -/
def demoNetDouble : Net :=
  ⟨fun u => if u == "https://api.github.com/repos/a/b" then some ⟨200, some "main"⟩ else none,
   fun u =>
     if u == "https://raw.githubusercontent.com/a/b/main/requirements.txt" then
       some ⟨200, []⟩
     else some ⟨404, []⟩⟩

/-- The raw manifest URL both entries of `demoInputDouble` resolve to. -/
def demoRawAB : String :=
  "https://raw.githubusercontent.com/a/b/main/requirements.txt"

/-- Network with a two-repository cycle: `x/a`'s manifest points at `x/b`
and vice versa, both pinned to `m`. -/
def demoNetCycle : Net :=
  ⟨fun _ => none,
   fun u =>
     if u == "https://raw.githubusercontent.com/x/a/m/requirements.txt" then
       some ⟨200, ["git+https://github.com/x/b@m"]⟩
     else if u == "https://raw.githubusercontent.com/x/b/m/requirements.txt" then
       some ⟨200, ["git+https://github.com/x/a@m"]⟩
     else some ⟨404, []⟩⟩

/-- The two keys of the cycle. -/
def cycleU : Finset RepoKey :=
  {("https://github.com/x/a", some "m"), ("https://github.com/x/b", some "m")}

/-! ## Lemmas about the string order used by `sorted` -/

theorem lexLe_total : ∀ a b : List Char, lexLe a b = true ∨ lexLe b a = true := by
  intro a
  induction a with
  | nil => intro b; left; simp [lexLe]
  | cons x xs ih =>
    intro b
    cases b with
    | nil => right; simp [lexLe]
    | cons y ys =>
      rcases Nat.lt_trichotomy x.toNat y.toNat with h | h | h
      · left; simp [lexLe, h]
      · rcases ih ys with h' | h'
        · left; simp [lexLe, h, h']
        · right; simp [lexLe, h.symm, h']
      · right; simp [lexLe, h]

theorem lexLe_trans :
    ∀ a b c : List Char, lexLe a b = true → lexLe b c = true → lexLe a c = true := by
  intro a
  induction a with
  | nil => intro b c _ _; simp [lexLe]
  | cons x xs ih =>
    intro b c hab hbc
    cases b with
    | nil => simp [lexLe] at hab
    | cons y ys =>
      cases c with
      | nil => simp [lexLe] at hbc
      | cons z zs =>
        simp only [lexLe] at hab hbc ⊢
        rcases Nat.lt_trichotomy x.toNat y.toNat with h1 | h1 | h1
        · rcases Nat.lt_trichotomy y.toNat z.toNat with h2 | h2 | h2
          · rw [if_pos (show x.toNat < z.toNat by omega)]
          · rw [if_pos (show x.toNat < z.toNat by omega)]
          · rw [if_neg (by omega), if_pos h2] at hbc
            exact Bool.noConfusion hbc
        · rcases Nat.lt_trichotomy y.toNat z.toNat with h2 | h2 | h2
          · rw [if_pos (show x.toNat < z.toNat by omega)]
          · rw [if_neg (by omega), if_neg (by omega)] at hab
            rw [if_neg (by omega), if_neg (by omega)] at hbc
            rw [if_neg (by omega), if_neg (by omega)]
            exact ih ys zs hab hbc
          · rw [if_neg (by omega), if_pos h2] at hbc
            exact Bool.noConfusion hbc
        · rw [if_neg (by omega), if_pos h1] at hab
          exact Bool.noConfusion hab

theorem charEqOfToNat {a b : Char} (h : a.toNat = b.toNat) : a = b :=
  Char.ext (UInt32.toNat.inj h)

theorem lexLe_antisymm :
    ∀ a b : List Char, lexLe a b = true → lexLe b a = true → a = b := by
  intro a
  induction a with
  | nil =>
    intro b _ hba
    cases b with
    | nil => rfl
    | cons y ys => simp [lexLe] at hba
  | cons x xs ih =>
    intro b hab hba
    cases b with
    | nil => simp [lexLe] at hab
    | cons y ys =>
      simp only [lexLe] at hab hba
      rcases Nat.lt_trichotomy x.toNat y.toNat with h1 | h1 | h1
      · rw [if_neg (by omega), if_pos h1] at hba
        exact Bool.noConfusion hba
      · rw [if_neg (by omega), if_neg (by omega)] at hab
        rw [if_neg (by omega), if_neg (by omega)] at hba
        rw [charEqOfToNat h1, ih ys hab hba]
      · rw [if_neg (by omega), if_pos h1] at hab
        exact Bool.noConfusion hab

theorem stringEqOfData : ∀ {a b : String}, a.toList = b.toList → a = b := by
  intro a b h
  cases a with
  | mk d1 =>
    cases b with
    | mk d2 =>
      have hd : d1 = d2 := by simpa [String.toList] using h
      rw [hd]

instance : IsTotal String strLeP :=
  ⟨fun a b => lexLe_total a.toList b.toList⟩

instance : IsTrans String strLeP :=
  ⟨fun a b c => lexLe_trans a.toList b.toList c.toList⟩

instance : IsAntisymm String strLeP :=
  ⟨fun a b h1 h2 => stringEqOfData (lexLe_antisymm a.toList b.toList h1 h2)⟩

theorem sortedStrings_sorted (l : List String) : (sortedStrings l).Sorted strLeP :=
  List.sorted_insertionSort strLeP l

theorem sortedStrings_isPerm (l : List String) : (sortedStrings l).Perm l :=
  List.perm_insertionSort strLeP l

theorem sortedStrings_congr {l₁ l₂ : List String} (h : l₁.Perm l₂) :
    sortedStrings l₁ = sortedStrings l₂ :=
  List.eq_of_perm_of_sorted
    ((sortedStrings_isPerm l₁).trans (h.trans (sortedStrings_isPerm l₂).symm))
    (sortedStrings_sorted l₁) (sortedStrings_sorted l₂)

/-! ## Lemmas about the dependency dictionary -/

theorem lookupDep_nil (name : String) : lookupDep [] name = none := rfl

theorem lookupDep_cons (p : String × SpecSet) (rest : List (String × SpecSet))
    (name : String) :
    lookupDep (p :: rest) name =
      if p.1 = name then some p.2 else lookupDep rest name := by
  by_cases h : p.1 = name <;> simp [lookupDep, List.find?_cons, h]

theorem setDep_cons_ne (p : String × SpecSet) (rest : List (String × SpecSet))
    (name : String) (s : SpecSet) (h : ¬ p.1 = name) :
    setDep (p :: rest) name s = p :: setDep rest name s := by
  by_cases hr : rest.any (fun q => q.1 == name) <;>
    simp [setDep, List.any_cons, h, hr]

theorem lookupDep_setDep_self :
    ∀ (d : List (String × SpecSet)) (name : String) (s : SpecSet),
      lookupDep (setDep d name s) name = some s := by
  intro d name s
  induction d with
  | nil => simp [setDep, lookupDep]
  | cons p rest ih =>
    by_cases h : p.1 = name
    · have hany : (p :: rest).any (fun q => q.1 == name) = true := by
        simp [List.any_cons, h]
      simp only [setDep, hany, if_true, List.map_cons]
      rw [if_pos (by simpa using h)]
      simp [lookupDep, List.find?_cons]
    · rw [setDep_cons_ne p rest name s h, lookupDep_cons, if_neg h]
      exact ih

theorem lookupDep_map_overwrite (rest : List (String × SpecSet))
    (name other : String) (s : SpecSet) (hne : name ≠ other) :
    lookupDep (rest.map (fun p => if p.1 == name then (name, s) else p)) other =
      lookupDep rest other := by
  induction rest with
  | nil => rfl
  | cons q qs ih =>
    rw [List.map_cons]
    by_cases hq : q.1 = name
    · rw [if_pos (by simpa using hq), lookupDep_cons, lookupDep_cons,
        if_neg (by simpa using hne), if_neg (by rw [hq]; exact hne)]
      exact ih
    · rw [if_neg (by simpa using hq), lookupDep_cons, lookupDep_cons]
      by_cases ho : q.1 = other
      · rw [if_pos ho, if_pos ho]
      · rw [if_neg ho, if_neg ho]
        exact ih

theorem lookupDep_append_single (d : List (String × SpecSet))
    (name other : String) (s : SpecSet) (hne : name ≠ other) :
    lookupDep (d ++ [(name, s)]) other = lookupDep d other := by
  induction d with
  | nil =>
    have h : (name == other) = false := by simpa using hne
    simp [lookupDep, List.find?, h]
  | cons p rest ih =>
    rw [List.cons_append, lookupDep_cons, lookupDep_cons]
    by_cases h : p.1 = other
    · rw [if_pos h, if_pos h]
    · rw [if_neg h, if_neg h]
      exact ih

theorem lookupDep_setDep_other (d : List (String × SpecSet))
    (name other : String) (s : SpecSet) (hne : name ≠ other) :
    lookupDep (setDep d name s) other = lookupDep d other := by
  by_cases hany : d.any (fun q => q.1 == name)
  · simp only [setDep, hany, if_true]
    exact lookupDep_map_overwrite d name other s hne
  · simp only [setDep, hany, Bool.false_eq_true, if_false]
    exact lookupDep_append_single d name other s hne

theorem mem_specAnd {a : SpecAtom} {s t : SpecSet} :
    a ∈ specAnd s t ↔ a ∈ s ∨ a ∈ t := by
  simp only [specAnd, List.mem_append, List.mem_filter, decide_eq_true_eq]
  by_cases h : a ∈ s <;> simp [h]

theorem specContains_specAnd (s t : SpecSet) (v : List Nat) :
    specContains (specAnd s t) v ↔ specContains s v ∧ specContains t v := by
  constructor
  · intro h
    exact ⟨fun a ha => h a (mem_specAnd.mpr (Or.inl ha)),
           fun a ha => h a (mem_specAnd.mpr (Or.inr ha))⟩
  · rintro ⟨h1, h2⟩ a ha
    rcases mem_specAnd.mp ha with h | h
    · exact h1 a h
    · exact h2 a h

/-! ## C4 -/

/-- C4: when a package name is already recorded with specifier set `s1` and
a manifest line records `s2` for the same name, the dictionary afterwards
stores exactly `s1 & s2`, and a version satisfies that merged specifier if
and only if it satisfies both `s1` and `s2` (merging is logical
intersection). -/
theorem merged_specifier_is_intersection (d : List (String × SpecSet))
    (name : String) (s1 s2 : SpecSet) (v : List Nat)
    (h : lookupDep d name = some s1) :
    lookupDep (mergeDep d name s2) name = some (specAnd s1 s2)
    ∧ (specContains (specAnd s1 s2) v ↔ specContains s1 v ∧ specContains s2 v) := by
  constructor
  · rw [mergeDep, h]
    exact lookupDep_setDep_self d name (specAnd s1 s2)
  · exact specContains_specAnd s1 s2 v

/-- Witness for C4 at a concrete dictionary: `foo` recorded at `>=1.0`,
merged with `<2.0`, checked at version `1.5`. -/
theorem merged_specifier_is_intersection_witness :
    lookupDep [("foo", [⟨Op.ge, "1.0"⟩])] "foo" = some [⟨Op.ge, "1.0"⟩]
    ∧ (lookupDep (mergeDep [("foo", [⟨Op.ge, "1.0"⟩])] "foo" [⟨Op.lt, "2.0"⟩]) "foo" =
        some (specAnd [⟨Op.ge, "1.0"⟩] [⟨Op.lt, "2.0"⟩])
    ∧ (specContains (specAnd [⟨Op.ge, "1.0"⟩] [⟨Op.lt, "2.0"⟩]) [1, 5] ↔
        specContains [⟨Op.ge, "1.0"⟩] [1, 5] ∧ specContains [⟨Op.lt, "2.0"⟩] [1, 5])) :=
  ⟨by decide,
   merged_specifier_is_intersection [("foo", [⟨Op.ge, "1.0"⟩])] "foo"
     [⟨Op.ge, "1.0"⟩] [⟨Op.lt, "2.0"⟩] [1, 5] (by decide)⟩

/-! ## C10 -/

theorem toList_git_shape (l : String) (h : startsWithS l "git+" = true) :
    ∃ cs, l.toList = 'g' :: 'i' :: 't' :: '+' :: cs := by
  rw [startsWithS, show "git+".toList = ['g', 'i', 't', '+'] from rfl] at h
  rcases hl : l.toList with _ | ⟨a, cs⟩
  · rw [hl] at h; simp [List.isPrefixOf] at h
  · rcases cs with _ | ⟨b, cs⟩
    · rw [hl] at h; simp [List.isPrefixOf] at h
    · rcases cs with _ | ⟨c, cs⟩
      · rw [hl] at h; simp [List.isPrefixOf] at h
      · rcases cs with _ | ⟨d, cs⟩
        · rw [hl] at h; simp [List.isPrefixOf] at h
        · rw [hl] at h
          simp only [List.isPrefixOf, List.isPrefixOf_nil_left, Bool.and_eq_true,
            beq_iff_eq] at h
          obtain ⟨ha, hb, hc, hd, _⟩ := h
          exact ⟨cs, by rw [ha, hb, hc, hd]⟩

theorem parseReq_of_git (l : String) (h : startsWithS l "git+" = true) :
    parseReq l = none := by
  obtain ⟨cs, hl⟩ := toList_git_shape l h
  rw [parseReq]
  rw [hl]
  have h1 : List.takeWhile isNameChar ('g' :: 'i' :: 't' :: '+' :: cs) =
      ['g', 'i', 't'] := rfl
  have h2 : List.dropWhile isNameChar ('g' :: 'i' :: 't' :: '+' :: cs) =
      '+' :: cs := rfl
  have h3 : dropWs ('+' :: cs) = '+' :: cs := rfl
  have h4 : parseAtoms ('+' :: cs) = none := by
    rw [parseAtoms]
    show parseAtomsGo (('+' :: cs).length + 1) ('+' :: cs) [] = none
    rw [show ('+' :: cs).length + 1 = cs.length + 2 from by simp]
    rfl
  simp only [hl, h1, h2, h3, h4]
  rfl

theorem classifyLine_git_skip (line : String)
    (h1 : startsWithS (pyStrip line) "git+" = true)
    (h2 : parseGitRequirement (pyStrip line) = none) :
    classifyLine line = .skip := by
  obtain ⟨cs, hl⟩ := toList_git_shape _ h1
  have hne : (pyStrip line == "") = false := by
    have : pyStrip line ≠ "" := by
      intro hcon
      rw [hcon] at hl
      simp at hl
    simpa using this
  have hhash : startsWithS (pyStrip line) "#" = false := by
    rw [startsWithS, hl, show "#".toList = ['#'] from rfl]
    simp [List.isPrefixOf]
  rw [classifyLine]
  simp only [hne, hhash, Bool.or_self, Bool.false_or, if_neg Bool.false_ne_true,
    parseReq_of_git _ h1, h1, h2]
  simp

/-- C10: a manifest line that (after stripping) starts with `git+` but does
not match the git-requirement pattern contributes nothing: the traversal
state — dependency dictionary, opaque set, visited set, log, and issued
requests — is left exactly as it was, and no diagnostic is printed. -/
theorem nonmatching_git_line_ignored (net : Net) (fuel : Nat) (line : String)
    (st : St) (h1 : startsWithS (pyStrip line) "git+" = true)
    (h2 : parseGitRequirement (pyStrip line) = none) :
    processLine net fuel line st = st := by
  cases fuel with
  | zero => rfl
  | succ f =>
    rw [processLine, classifyLine_git_skip line h1 h2]

/-- Witness for C10 at the concrete line `git+ssh://example.com/repo.git`. -/
theorem nonmatching_git_line_ignored_witness :
    startsWithS (pyStrip "git+ssh://example.com/repo.git") "git+" = true
    ∧ parseGitRequirement (pyStrip "git+ssh://example.com/repo.git") = none
    ∧ processLine trivNet 5 "git+ssh://example.com/repo.git" St.init = St.init :=
  ⟨by decide, by decide,
   nonmatching_git_line_ignored trivNet 5 "git+ssh://example.com/repo.git" St.init
     (by decide) (by decide)⟩

/-! ## C1 -/

/-- C1 (run at the failing input): with a manifest consisting of the single
unparseable, non-source-link line `-e .`, the line is added verbatim to the
in-memory opaque-requirement set, but the output file — built at lines
139-150 exclusively from `dependency_dict` — is empty: the line never
reaches the emitted manifest. -/
theorem opaque_line_collected_but_never_emitted :
    (consolidateRequirements demoNetOpaque 9 demoInputAB).st.urlReqs = ["-e ."]
    ∧ (consolidateRequirements demoNetOpaque 9 demoInputAB).output = some [] := by
  constructor <;> decide

/-! ## C2 (counterexample) -/

/-- C2 counterexample: the visited key is built at line 37 from the commit
*as given*, before default-branch resolution at line 46.  With the same
repository listed once with an empty commit and once pinned to its default
branch `main`, both traversal visits resolve to the same `(url, main)`
manifest, yet the raw manifest URL is requested twice: the two refs are
distinct identity keys, refuting the claim that they coincide and are
fetched at most once. -/
theorem same_resolved_ref_fetched_twice :
    (consolidateRequirements demoNetDouble 9 demoInputDouble).st.rawFetches =
      [demoRawAB, demoRawAB]
    ∧ (consolidateRequirements demoNetDouble 9 demoInputDouble).st.visited =
      [("https://github.com/a/b", some ""), ("https://github.com/a/b", some "main")] := by
  constructor <;> decide

/-! ## C8 -/

/-- C8: on the spec's example input (repository `a/b` at `main`, manifest
`foo>=1.0` then `bar==2.0`) the emitted manifest is exactly `bar==2.0` then
`foo>=1.0`; and in general the emitted lines are the rendered
`dependency_dict` entries (name followed by its specifier when non-empty,
else the bare name) sorted lexicographically. -/
theorem sorted_output_example :
    (consolidateRequirements demoNetSorted 9 demoInputAB).output =
      some ["bar==2.0", "foo>=1.0"]
    ∧ (∀ deps : List (String × SpecSet), (emitLines deps).Sorted strLeP)
    ∧ (∀ deps : List (String × SpecSet), ∀ s ∈ emitLines deps,
        ∃ p ∈ deps, s = emitLine p) := by
  refine ⟨by decide, fun deps => sortedStrings_sorted _, fun deps s hs => ?_⟩
  have hmem : s ∈ deps.map emitLine :=
    ((sortedStrings_isPerm (deps.map emitLine)).mem_iff).mp hs
  obtain ⟨p, hp, hsp⟩ := List.mem_map.mp hmem
  exact ⟨p, hp, hsp.symm⟩

/-- Witness for C8's universally quantified part at a one-entry dictionary. -/
theorem sorted_output_example_witness :
    "a" ∈ emitLines [("a", ([] : SpecSet))]
    ∧ ∃ p ∈ [("a", ([] : SpecSet))], "a" = emitLine p :=
  ⟨by decide, sorted_output_example.2.2 [("a", ([] : SpecSet))] "a" (by decide)⟩

/-! ## Unfolding equations of the traversal (all hold by reduction) -/

theorem processRepo_zero (net : Net) (url : String) (c : Option String) (st : St) :
    processRepo net 0 url c st = st := rfl

theorem processRepo_succ (net : Net) (f : Nat) (url : String) (c : Option String)
    (st : St) :
    processRepo net (f + 1) url c st =
      match repoStep net url c st with
      | .earlyExit st' => st'
      | .runLines lines st' => processLines net f lines st' := rfl

theorem processLines_zero (net : Net) (lines : List String) (st : St) :
    processLines net 0 lines st = st := rfl

theorem processLines_nil (net : Net) (fuel : Nat) (st : St) :
    processLines net fuel [] st = st := by
  cases fuel <;> rfl

theorem processLines_cons (net : Net) (f : Nat) (l : String) (ls : List String)
    (st : St) :
    processLines net (f + 1) (l :: ls) st =
      processLines net f ls (processLine net f l st) := rfl

theorem processLine_zero (net : Net) (line : String) (st : St) :
    processLine net 0 line st = st := rfl

theorem processLine_succ (net : Net) (f : Nat) (line : String) (st : St) :
    processLine net (f + 1) line st =
      match classifyLine line with
      | .skip => st
      | .addDep name specs => { st with deps := mergeDep st.deps name specs }
      | .recurse g gc => processRepo net f g gc st
      | .addOpaque raw =>
        { st with
          urlReqs := if raw ∈ st.urlReqs then st.urlReqs else st.urlReqs ++ [raw] } :=
  rfl

/-! ## Growth and fetch invariants of the traversal -/

theorem stMono_refl (st : St) : StMono st st :=
  ⟨fun _ h => h, fun _ h => h, fun _ h => h⟩

theorem stMono_trans {a b c : St} (h1 : StMono a b) (h2 : StMono b c) :
    StMono a c :=
  ⟨fun _ h => h2.1 (h1.1 h), fun _ h => h2.2.1 (h1.2.1 h),
   fun _ h => h2.2.2 (h1.2.2 h)⟩

theorem stMono_of_appends {st st' : St} {v f : List RepoKey} {r : List String}
    (hv : st'.visited = st.visited ++ v) (hf : st'.fetched = st.fetched ++ f)
    (hr : st'.rawFetches = st.rawFetches ++ r) : StMono st st' := by
  refine ⟨fun x hx => ?_, fun x hx => ?_, fun x hx => ?_⟩
  · rw [hv]; exact List.mem_append_left _ hx
  · rw [hf]; exact List.mem_append_left _ hx
  · rw [hr]; exact List.mem_append_left _ hx

theorem fetchInv_visit {st st' : St} {k : RepoKey}
    (hinv : FetchInv st) (hk : k ∉ st.visited)
    (hv : st'.visited = st.visited ++ [k]) (hf : st'.fetched = st.fetched) :
    FetchInv st' := by
  obtain ⟨h1, h2, h3⟩ := hinv
  refine ⟨?_, ?_, ?_⟩
  · rw [hv]; simp [List.nodup_append, h1, hk]
  · rw [hf]; exact h2
  · intro x hx
    rw [hf] at hx
    rw [hv]
    exact List.mem_append_left _ (h3 x hx)

theorem fetchInv_fetch {st st' : St} {k : RepoKey}
    (hinv : FetchInv st) (hk : k ∉ st.visited)
    (hv : st'.visited = st.visited ++ [k]) (hf : st'.fetched = st.fetched ++ [k]) :
    FetchInv st' := by
  obtain ⟨h1, h2, h3⟩ := hinv
  have hkf : k ∉ st.fetched := fun hx => hk (h3 _ hx)
  refine ⟨?_, ?_, ?_⟩
  · rw [hv]; simp [List.nodup_append, h1, hk]
  · rw [hf]; simp [List.nodup_append, h2, hkf]
  · intro x hx
    rw [hf] at hx
    rw [hv]
    rcases List.mem_append.mp hx with h | h
    · exact List.mem_append_left _ (h3 x h)
    · exact List.mem_append_right _ h

theorem repoStep_spec (net : Net) (url : String) (c : Option String) (st : St) :
    match repoStep net url c st with
    | .earlyExit st' =>
        StMono st st' ∧ (FetchInv st → FetchInv st')
        ∧ (((url == "") = false ∧ (url, c) ∉ st.visited) →
            st'.visited = st.visited ++ [(url, c)] ∧ fetchLines net url c = [])
        ∧ (((url == "") = true ∨ (url, c) ∈ st.visited) → st' = st)
        ∧ (∀ commit, (url == "") = false → (url, c) ∉ st.visited →
            resolveCommit net url c = some commit →
            rawUrlOf url commit ∈ st'.rawFetches)
    | .runLines lines st' =>
        StMono st st' ∧ (FetchInv st → FetchInv st')
        ∧ lines = fetchLines net url c
        ∧ st'.visited = st.visited ++ [(url, c)]
        ∧ (url == "") = false ∧ (url, c) ∉ st.visited
        ∧ (∀ commit, resolveCommit net url c = some commit →
            rawUrlOf url commit ∈ st'.rawFetches) := by
  rcases hstep : repoStep net url c st with st' | ⟨lines, st'⟩
  · unfold repoStep at hstep
    split at hstep
    · -- url == ""
      next hurl =>
      cases hstep
      exact ⟨stMono_refl st, id,
        fun h => Bool.noConfusion (h.1 ▸ hurl), fun _ => rfl,
        fun _ hu _ _ => Bool.noConfusion (hu ▸ hurl)⟩
    · next hurl =>
      split at hstep
      · -- already visited
        next hvis =>
        cases hstep
        exact ⟨stMono_refl st, id, fun h => absurd hvis h.2, fun _ => rfl,
          fun commit _ hnv _ => absurd hvis hnv⟩
      · next hvis =>
        have hurl' : (url == "") = false := Bool.eq_false_iff.mpr hurl
        split at hstep
        · -- resolveCommit = none
          next hres =>
          cases hstep
          refine ⟨stMono_of_appends (v := [(url, c)]) (f := []) (r := []) rfl
              (by simp) (by simp), fun h => fetchInv_visit h hvis rfl rfl,
            fun _ => ⟨rfl, by rw [fetchLines, hres]⟩, ?_, ?_⟩
          · rintro (h | h)
            · exact absurd h hurl
            · exact absurd h hvis
          · intro commit _ _ hres'
            rw [hres] at hres'
            exact Option.noConfusion hres'
        · -- resolveCommit = some commit
          next commit hres =>
          split at hstep
          · -- network exception on the raw fetch
            next hraw =>
            cases hstep
            refine ⟨stMono_of_appends (v := [(url, c)]) (f := [(url, c)])
                (r := [rawUrlOf url commit]) rfl rfl rfl,
              fun h => fetchInv_fetch h hvis rfl rfl,
              fun _ => ⟨rfl, by simp [fetchLines, hres, hraw]⟩, ?_, ?_⟩
            · rintro (h | h)
              · exact absurd h hurl
              · exact absurd h hvis
            · intro commit' _ _ hres'
              rw [hres] at hres'
              cases hres'
              exact List.mem_append_right _ (by simp)
          · next r hraw =>
            split at hstep
            · -- HTTP 200: this is the runLines arm, contradiction
              exact FetchOutcome.noConfusion hstep
            · next hstat =>
              cases hstep
              refine ⟨stMono_of_appends (v := [(url, c)]) (f := [(url, c)])
                  (r := [rawUrlOf url commit]) rfl rfl rfl,
                fun h => fetchInv_fetch h hvis rfl rfl,
                fun _ => ⟨rfl, by simp [fetchLines, hres, hraw, hstat]⟩, ?_, ?_⟩
              · rintro (h | h)
                · exact absurd h hurl
                · exact absurd h hvis
              · intro commit' _ _ hres'
                rw [hres] at hres'
                cases hres'
                exact List.mem_append_right _ (by simp)
  · unfold repoStep at hstep
    split at hstep
    · exact FetchOutcome.noConfusion hstep
    · next hurl =>
      split at hstep
      · exact FetchOutcome.noConfusion hstep
      · next hvis =>
        have hurl' : (url == "") = false := Bool.eq_false_iff.mpr hurl
        split at hstep
        · exact FetchOutcome.noConfusion hstep
        · next commit hres =>
          split at hstep
          · exact FetchOutcome.noConfusion hstep
          · next r hraw =>
            split at hstep
            · next hstat =>
              cases hstep
              refine ⟨stMono_of_appends (v := [(url, c)]) (f := [(url, c)])
                  (r := [rawUrlOf url commit]) rfl rfl rfl,
                fun h => fetchInv_fetch h hvis rfl rfl,
                by simp [fetchLines, hres, hraw, hstat], rfl, hurl', hvis, ?_⟩
              intro commit' hres'
              rw [hres] at hres'
              cases hres'
              exact List.mem_append_right _ (by simp)
            · exact FetchOutcome.noConfusion hstep

/-- Growth and fetch-invariant preservation for the whole traversal, by
induction on the fuel. -/
theorem processMaster (net : Net) : ∀ fuel : Nat,
    (∀ url c st, StMono st (processRepo net fuel url c st)
      ∧ (FetchInv st → FetchInv (processRepo net fuel url c st)))
    ∧ (∀ lines st, StMono st (processLines net fuel lines st)
      ∧ (FetchInv st → FetchInv (processLines net fuel lines st)))
    ∧ (∀ line st, StMono st (processLine net fuel line st)
      ∧ (FetchInv st → FetchInv (processLine net fuel line st))) := by
  intro fuel
  induction fuel with
  | zero =>
    exact ⟨fun url c st => ⟨stMono_refl _, id⟩,
           fun lines st => ⟨stMono_refl _, id⟩,
           fun line st => ⟨stMono_refl _, id⟩⟩
  | succ f ih =>
    obtain ⟨ihRepo, ihLines, ihLine⟩ := ih
    refine ⟨fun url c st => ?_, fun lines st => ?_, fun line st => ?_⟩
    · rw [processRepo_succ]
      have hspec := repoStep_spec net url c st
      rcases hstep : repoStep net url c st with st' | ⟨lines, st'⟩
      · rw [hstep] at hspec
        exact ⟨hspec.1, hspec.2.1⟩
      · rw [hstep] at hspec
        exact ⟨stMono_trans hspec.1 (ihLines lines st').1,
               fun h => (ihLines lines st').2 (hspec.2.1 h)⟩
    · cases lines with
      | nil => rw [processLines_nil]; exact ⟨stMono_refl _, id⟩
      | cons l ls =>
        rw [processLines_cons]
        exact ⟨stMono_trans (ihLine l st).1 (ihLines ls _).1,
               fun h => (ihLines ls _).2 ((ihLine l st).2 h)⟩
    · rw [processLine_succ]
      cases hcl : classifyLine line with
      | skip => exact ⟨stMono_refl _, id⟩
      | addDep name specs =>
        exact ⟨⟨fun x hx => hx, fun x hx => hx, fun x hx => hx⟩, fun h => h⟩
      | recurse g gc => exact ihRepo g gc st
      | addOpaque raw =>
        exact ⟨⟨fun x hx => hx, fun x hx => hx, fun x hx => hx⟩, fun h => h⟩

/-! ## C2 (amended) -/

/-- C2 (amended): the identity key is the `(url, commit)` pair exactly as
given (before default-branch resolution).  Every run preserves the fetch
bookkeeping invariant: each key is marked visited before its fetch, the
visited set never holds a key twice, and no key's manifest is fetched more
than once.  (The counterexample above shows that an empty-commit ref and
the same repository pinned to its default branch are *distinct* keys, each
fetched once.) -/
theorem visited_marked_before_fetch (net : Net) (fuel : Nat) (url : String)
    (c : Option String) (st : St)
    (h1 : st.visited.Nodup) (h2 : st.fetched.Nodup)
    (h3 : ∀ k ∈ st.fetched, k ∈ st.visited) :
    (processRepo net fuel url c st).fetched.Nodup
    ∧ (∀ k ∈ (processRepo net fuel url c st).fetched,
        k ∈ (processRepo net fuel url c st).visited)
    ∧ (processRepo net fuel url c st).visited.Nodup := by
  have h := ((processMaster net fuel).1 url c st).2 ⟨h1, h2, h3⟩
  exact ⟨h.2.1, h.2.2, h.1⟩

/-- Witness for C2's amended statement on the cyclic fixture from the
initial state. -/
theorem visited_marked_before_fetch_witness :
    St.init.visited.Nodup ∧ St.init.fetched.Nodup
    ∧ (∀ k ∈ St.init.fetched, k ∈ St.init.visited)
    ∧ ((processRepo demoNetCycle 9 "https://github.com/x/a" (some "m") St.init).fetched.Nodup
      ∧ (∀ k ∈ (processRepo demoNetCycle 9 "https://github.com/x/a" (some "m") St.init).fetched,
          k ∈ (processRepo demoNetCycle 9 "https://github.com/x/a" (some "m") St.init).visited)
      ∧ (processRepo demoNetCycle 9 "https://github.com/x/a" (some "m") St.init).visited.Nodup) :=
  ⟨by decide, by decide, by decide,
   visited_marked_before_fetch demoNetCycle 9 "https://github.com/x/a" (some "m")
     St.init (by decide) (by decide) (by decide)⟩

/-! ## Measure lemmas for the traversal termination argument -/

theorem unvisitedCard_mono {U : Finset RepoKey} {st st' : St}
    (h : st.visited ⊆ st'.visited) : unvisitedCard U st' ≤ unvisitedCard U st := by
  apply Finset.card_le_card
  intro k hk
  rw [Finset.mem_filter] at hk ⊢
  exact ⟨hk.1, fun hmem => hk.2 (h hmem)⟩

theorem unvisitedCard_lt {U : Finset RepoKey} {st st' : St} {k : RepoKey}
    (hU : k ∈ U) (hnv : k ∉ st.visited) (hv : st'.visited = st.visited ++ [k]) :
    unvisitedCard U st' < unvisitedCard U st := by
  apply Finset.card_lt_card
  rw [Finset.ssubset_def]
  constructor
  · intro x hx
    rw [Finset.mem_filter] at hx ⊢
    refine ⟨hx.1, fun hmem => hx.2 ?_⟩
    rw [hv]
    exact List.mem_append_left _ hmem
  · intro hsub
    have hk1 : k ∈ U.filter (fun k => k ∉ st.visited) :=
      Finset.mem_filter.mpr ⟨hU, hnv⟩
    have hk2 := hsub hk1
    rw [Finset.mem_filter, hv] at hk2
    exact hk2.2 (List.mem_append_right _ (by simp))

theorem unvisitedCard_pos {U : Finset RepoKey} {st : St} {k : RepoKey}
    (hU : k ∈ U) (hnv : k ∉ st.visited) : 1 ≤ unvisitedCard U st := by
  have : k ∈ U.filter (fun k => k ∉ st.visited) := Finset.mem_filter.mpr ⟨hU, hnv⟩
  exact Finset.card_pos.mpr ⟨k, this⟩

theorem unvisitedCard_init (U : Finset RepoKey) :
    unvisitedCard U St.init = U.card := by
  unfold unvisitedCard
  rw [Finset.filter_true_of_mem]
  intro x _
  simp [St.init]

/-- The result of the traversal is independent of the fuel, once the fuel
exceeds `n * (L + 2)` where `n` bounds the unvisited keys of a finite,
successor-closed universe `U` and `L` bounds every manifest's length. -/
theorem stabilize (net : Net) (U : Finset RepoKey) (L : Nat)
    (hclosed : ∀ k ∈ U, ∀ k' ∈ gitSuccs net k, k' ∈ U)
    (hlen : ∀ k ∈ U, (fetchLines net k.1 k.2).length ≤ L) :
    ∀ n : Nat,
      (∀ url c st f₁ f₂, (url, c) ∈ U → unvisitedCard U st ≤ n →
        n * (L + 2) ≤ f₁ → n * (L + 2) ≤ f₂ →
        processRepo net f₁ url c st = processRepo net f₂ url c st)
      ∧ (∀ lines st f₁ f₂,
          (∀ k ∈ lines.filterMap lineKey, k ∈ U) →
          unvisitedCard U st ≤ n →
          lines.length + 1 + n * (L + 2) ≤ f₁ →
          lines.length + 1 + n * (L + 2) ≤ f₂ →
          processLines net f₁ lines st = processLines net f₂ lines st) := by
  intro n
  induction n using Nat.strong_induction_on with
  | _ n IH =>
  have hRepo : ∀ url c st f₁ f₂, (url, c) ∈ U → unvisitedCard U st ≤ n →
      n * (L + 2) ≤ f₁ → n * (L + 2) ≤ f₂ →
      processRepo net f₁ url c st = processRepo net f₂ url c st := by
    intro url c st f₁ f₂ hU hcard hf₁ hf₂
    by_cases hurl : (url == "") = true
    · have hconst : ∀ f, processRepo net f url c st = st := by
        intro f
        cases f with
        | zero => rfl
        | succ f' =>
          rw [processRepo_succ]
          have hspec := repoStep_spec net url c st
          rcases hstep : repoStep net url c st with st' | ⟨lines, st'⟩
          · rw [hstep] at hspec
            exact hspec.2.2.2.1 (Or.inl hurl)
          · rw [hstep] at hspec
            exact Bool.noConfusion (hspec.2.2.2.2.1 ▸ hurl)
      rw [hconst f₁, hconst f₂]
    · by_cases hvis : (url, c) ∈ st.visited
      · have hconst : ∀ f, processRepo net f url c st = st := by
          intro f
          cases f with
          | zero => rfl
          | succ f' =>
            rw [processRepo_succ]
            have hspec := repoStep_spec net url c st
            rcases hstep : repoStep net url c st with st' | ⟨lines, st'⟩
            · rw [hstep] at hspec
              exact hspec.2.2.2.1 (Or.inr hvis)
            · rw [hstep] at hspec
              exact absurd hvis hspec.2.2.2.2.2.1
        rw [hconst f₁, hconst f₂]
      · -- the key is genuinely processed: n is at least 1
        obtain ⟨m, rfl⟩ : ∃ m, n = m + 1 := by
          have h1 : 1 ≤ unvisitedCard U st := unvisitedCard_pos hU hvis
          exact ⟨n - 1, by omega⟩
        rw [Nat.succ_mul] at hf₁ hf₂
        have hfa : 1 ≤ f₁ := by omega
        have hfb : 1 ≤ f₂ := by omega
        obtain ⟨a, rfl⟩ : ∃ a, f₁ = a + 1 := ⟨f₁ - 1, by omega⟩
        obtain ⟨b, rfl⟩ : ∃ b, f₂ = b + 1 := ⟨f₂ - 1, by omega⟩
        rw [processRepo_succ, processRepo_succ]
        have hspec := repoStep_spec net url c st
        rcases hstep : repoStep net url c st with st' | ⟨lines, st'⟩
        · rfl
        · rw [hstep] at hspec
          obtain ⟨_, _, hfetchEq, hvisEq, _, _, _⟩ := hspec
          have hcard' : unvisitedCard U st' ≤ m := by
            have hlt := unvisitedCard_lt hU hvis hvisEq
            omega
          have hkeys : ∀ k ∈ lines.filterMap lineKey, k ∈ U := by
            intro k hk
            apply hclosed (url, c) hU
            rw [gitSuccs]
            rw [hfetchEq] at hk
            exact hk
          have hlinesLen : lines.length ≤ L := by
            rw [hfetchEq]
            exact hlen (url, c) hU
          exact (IH m (by omega)).2 lines st' a b hkeys hcard'
            (by omega) (by omega)
  have hLines : ∀ lines st f₁ f₂,
      (∀ k ∈ lines.filterMap lineKey, k ∈ U) →
      unvisitedCard U st ≤ n →
      lines.length + 1 + n * (L + 2) ≤ f₁ →
      lines.length + 1 + n * (L + 2) ≤ f₂ →
      processLines net f₁ lines st = processLines net f₂ lines st := by
    intro lines
    induction lines with
    | nil =>
      intro st f₁ f₂ _ _ _ _
      rw [processLines_nil, processLines_nil]
    | cons l ls ihl =>
      intro st f₁ f₂ hkeys hcard hf₁ hf₂
      simp only [List.length_cons] at hf₁ hf₂
      obtain ⟨a, rfl⟩ : ∃ a, f₁ = a + 1 := ⟨f₁ - 1, by omega⟩
      obtain ⟨b, rfl⟩ : ∃ b, f₂ = b + 1 := ⟨f₂ - 1, by omega⟩
      rw [processLines_cons, processLines_cons]
      have hline : processLine net a l st = processLine net b l st := by
        obtain ⟨a', rfl⟩ : ∃ x, a = x + 1 := ⟨a - 1, by omega⟩
        obtain ⟨b', rfl⟩ : ∃ x, b = x + 1 := ⟨b - 1, by omega⟩
        rw [processLine_succ, processLine_succ]
        cases hcl : classifyLine l with
        | skip => rfl
        | addDep nm sp => rfl
        | addOpaque raw => rfl
        | recurse g gc =>
          have hk : (g, gc) ∈ U := by
            apply hkeys
            rw [List.filterMap_cons]
            rw [lineKey, hcl]
            exact List.mem_cons_self _ _
          exact hRepo g gc st a' b' hk hcard (by omega) (by omega)
      rw [hline]
      apply ihl
      · intro k hk
        rcases List.mem_filterMap.mp hk with ⟨x, hx, hfx⟩
        exact hkeys k (List.mem_filterMap.mpr ⟨x, List.mem_cons_of_mem _ hx, hfx⟩)
      · exact le_trans (unvisitedCard_mono ((processMaster net b).2.2 l st).1.1) hcard
      · omega
      · omega
  exact ⟨hRepo, hLines⟩

/-! ## Inversion lemmas for line classification -/

theorem classifyLine_recurse_ne {line g : String} {gc : Option String}
    (h : classifyLine line = .recurse g gc) : (g == "") = false := by
  unfold classifyLine at h
  repeat' split at h
  all_goals try exact LineAction.noConfusion h
  cases h
  exact Bool.eq_false_iff.mpr (by assumption)

theorem lineKey_some {line : String} {p : RepoKey} (h : lineKey line = some p) :
    classifyLine line = .recurse p.1 p.2 := by
  rw [lineKey] at h
  cases hcl : classifyLine line <;> rw [hcl] at h
  case skip => exact Option.noConfusion h
  case addDep => exact Option.noConfusion h
  case addOpaque => exact Option.noConfusion h
  case recurse g gc =>
    obtain rfl : p = (g, gc) := (Option.some.inj h).symm
    rfl

theorem processLine_visited_of_not_recurse (net : Net) (f : Nat) (line : String)
    (st : St) (h : ∀ g gc, classifyLine line ≠ .recurse g gc) :
    (processLine net f line st).visited = st.visited := by
  cases f with
  | zero => rfl
  | succ f' =>
    rw [processLine_succ]
    cases hcl : classifyLine line with
    | skip => rfl
    | addDep nm sp => rfl
    | recurse g gc => exact absurd hcl (h g gc)
    | addOpaque raw => rfl

/-- With enough fuel the traversal reaches its root key and, transitively,
every source-link successor of every key it visits. -/
theorem traversalComplete (net : Net) (U : Finset RepoKey) (L : Nat)
    (hclosed : ∀ k ∈ U, ∀ k' ∈ gitSuccs net k, k' ∈ U)
    (hlen : ∀ k ∈ U, (fetchLines net k.1 k.2).length ≤ L) :
    ∀ n : Nat,
      (∀ url c st f, (url, c) ∈ U → (url == "") = false →
        unvisitedCard U st ≤ n → n * (L + 2) < f →
        ((url, c) ∈ (processRepo net f url c st).visited
         ∧ ∀ k, k ∈ (processRepo net f url c st).visited → k ∉ st.visited →
             ∀ k' ∈ gitSuccs net k, k' ∈ (processRepo net f url c st).visited))
      ∧ (∀ lines st f,
          (∀ k ∈ lines.filterMap lineKey, k ∈ U) →
          unvisitedCard U st ≤ n →
          lines.length + 1 + n * (L + 2) < f →
          ((∀ k' ∈ lines.filterMap lineKey, k' ∈ (processLines net f lines st).visited)
           ∧ ∀ k, k ∈ (processLines net f lines st).visited → k ∉ st.visited →
               ∀ k' ∈ gitSuccs net k, k' ∈ (processLines net f lines st).visited)) := by
  intro n
  induction n using Nat.strong_induction_on with
  | _ n IH =>
  have hRepo : ∀ url c st f, (url, c) ∈ U → (url == "") = false →
      unvisitedCard U st ≤ n → n * (L + 2) < f →
      ((url, c) ∈ (processRepo net f url c st).visited
       ∧ ∀ k, k ∈ (processRepo net f url c st).visited → k ∉ st.visited →
           ∀ k' ∈ gitSuccs net k, k' ∈ (processRepo net f url c st).visited) := by
    intro url c st f hU hurl hcard hf
    by_cases hvis : (url, c) ∈ st.visited
    · have hconst : processRepo net f url c st = st := by
        cases f with
        | zero => rfl
        | succ f' =>
          rw [processRepo_succ]
          have hspec := repoStep_spec net url c st
          rcases hstep : repoStep net url c st with st' | ⟨lines, st'⟩
          · rw [hstep] at hspec
            exact hspec.2.2.2.1 (Or.inr hvis)
          · rw [hstep] at hspec
            exact absurd hvis hspec.2.2.2.2.2.1
      rw [hconst]
      exact ⟨hvis, fun k hk hnk => absurd hk hnk⟩
    · obtain ⟨m, rfl⟩ : ∃ m, n = m + 1 := by
        have h1 := unvisitedCard_pos hU hvis
        exact ⟨n - 1, by omega⟩
      rw [Nat.succ_mul] at hf
      obtain ⟨f', rfl⟩ : ∃ x, f = x + 1 := ⟨f - 1, by omega⟩
      rw [processRepo_succ]
      have hspec := repoStep_spec net url c st
      rcases hstep : repoStep net url c st with st' | ⟨lines, st'⟩
      · rw [hstep] at hspec
        obtain ⟨hvisEq, hfetchEmpty⟩ := hspec.2.2.1 ⟨hurl, hvis⟩
        constructor
        · rw [hvisEq]
          exact List.mem_append_right _ (by simp)
        · intro k hk hnk k' hk'
          have hkey : k = (url, c) := by
            rw [hvisEq] at hk
            rcases List.mem_append.mp hk with h | h
            · exact absurd h hnk
            · simpa using h
          rw [hkey, gitSuccs, hfetchEmpty] at hk'
          simp at hk'
      · rw [hstep] at hspec
        obtain ⟨hmono, _, hfetchEq, hvisEq, _, _, _⟩ := hspec
        have hcard' : unvisitedCard U st' ≤ m := by
          have hlt := unvisitedCard_lt hU hvis hvisEq
          omega
        have hkeys : ∀ k ∈ lines.filterMap lineKey, k ∈ U := by
          intro k hk
          apply hclosed (url, c) hU
          rw [gitSuccs]
          rw [hfetchEq] at hk
          exact hk
        have hlinesLen : lines.length ≤ L := by
          rw [hfetchEq]
          exact hlen (url, c) hU
        have hL := (IH m (by omega)).2 lines st' f' hkeys hcard' (by omega)
        have hmonoL := ((processMaster net f').2.1 lines st').1.1
        constructor
        · apply hmonoL
          rw [hvisEq]
          exact List.mem_append_right _ (by simp)
        · intro k hk hnk k' hk'
          by_cases hk1 : k ∈ st'.visited
          · have hkey : k = (url, c) := by
              rw [hvisEq] at hk1
              rcases List.mem_append.mp hk1 with h | h
              · exact absurd h hnk
              · simpa using h
            rw [hkey, gitSuccs, ← hfetchEq] at hk'
            exact hL.1 k' hk'
          · exact hL.2 k hk hk1 k' hk'
  have hLines : ∀ lines st f,
      (∀ k ∈ lines.filterMap lineKey, k ∈ U) →
      unvisitedCard U st ≤ n →
      lines.length + 1 + n * (L + 2) < f →
      ((∀ k' ∈ lines.filterMap lineKey, k' ∈ (processLines net f lines st).visited)
       ∧ ∀ k, k ∈ (processLines net f lines st).visited → k ∉ st.visited →
           ∀ k' ∈ gitSuccs net k, k' ∈ (processLines net f lines st).visited) := by
    intro lines
    induction lines with
    | nil =>
      intro st f _ _ _
      rw [processLines_nil]
      exact ⟨fun k' hk' => absurd hk' (by simp), fun k hk hnk => absurd hk hnk⟩
    | cons l ls ihl =>
      intro st f hkeys hcard hf
      simp only [List.length_cons] at hf
      obtain ⟨a, rfl⟩ : ∃ x, f = x + 1 := ⟨f - 1, by omega⟩
      rw [processLines_cons]
      have hkeysTl : ∀ k ∈ ls.filterMap lineKey, k ∈ U := by
        intro k hk
        rcases List.mem_filterMap.mp hk with ⟨x, hx, hfx⟩
        exact hkeys k (List.mem_filterMap.mpr ⟨x, List.mem_cons_of_mem _ hx, hfx⟩)
      have hmonoHead := ((processMaster net a).2.2 l st).1.1
      have hcardHead : unvisitedCard U (processLine net a l st) ≤ n :=
        le_trans (unvisitedCard_mono hmonoHead) hcard
      have hTl := ihl (processLine net a l st) a hkeysTl hcardHead (by omega)
      have hmonoTl := ((processMaster net a).2.1 ls (processLine net a l st)).1.1
      constructor
      · intro k' hk'
        rw [List.filterMap_cons] at hk'
        cases hlk : lineKey l with
        | none =>
          rw [hlk] at hk'
          exact hTl.1 k' hk'
        | some p =>
          rw [hlk] at hk'
          rcases List.mem_cons.mp hk' with rfl | hmem
          · -- the head line recurses on k'
            have hcl := lineKey_some hlk
            obtain ⟨a', rfl⟩ : ∃ x, a = x + 1 := ⟨a - 1, by omega⟩
            have hkU : (k'.1, k'.2) ∈ U := by
              apply hkeys
              rw [List.filterMap_cons, hlk]
              simp
            have hne := classifyLine_recurse_ne hcl
            have hHead := hRepo k'.1 k'.2 st a' hkU hne hcard (by omega)
            apply hmonoTl
            have : processLine net (a' + 1) l st = processRepo net a' k'.1 k'.2 st := by
              rw [processLine_succ, hcl]
            rw [this]
            exact hHead.1
          · exact hTl.1 k' hmem
      · intro k hk hnk k' hk'
        by_cases hk1 : k ∈ (processLine net a l st).visited
        · -- k became visited while processing the head line
          cases hlk : lineKey l with
          | none =>
            have hcl : ∀ g gc, classifyLine l ≠ .recurse g gc := by
              intro g gc hcl
              rw [lineKey, hcl] at hlk
              exact Option.noConfusion hlk
            rw [processLine_visited_of_not_recurse net a l st hcl] at hk1
            exact absurd hk1 hnk
          | some p =>
            have hcl := lineKey_some hlk
            obtain ⟨a', rfl⟩ : ∃ x, a = x + 1 := ⟨a - 1, by omega⟩
            have hkU : (p.1, p.2) ∈ U := by
              apply hkeys
              rw [List.filterMap_cons, hlk]
              simp
            have hne := classifyLine_recurse_ne hcl
            have hHead := hRepo p.1 p.2 st a' hkU hne hcard (by omega)
            have heq : processLine net (a' + 1) l st = processRepo net a' p.1 p.2 st := by
              rw [processLine_succ, hcl]
            rw [heq] at hk1
            have := hHead.2 k hk1 hnk k' hk'
            apply hmonoTl
            rw [heq]
            exact this
        · exact hTl.2 k hk hk1 k' hk'
  exact ⟨hRepo, hLines⟩

/-! ## C3 -/

/-- C3: on a finite (possibly cyclic) traversal graph — a finite universe
`U` of (repo, ref) keys closed under source-link successors, with every
manifest's length bounded — the recursive traversal terminates (the result
is the same for every sufficiently large recursion budget), the visited log
never records a key twice, and with sufficient budget the root key is
visited and the visited set is closed under source-link successors; hence
each distinct (repo, ref) pair reachable through the cycle is visited
exactly once. -/
theorem traversal_cycle_safety (net : Net) (U : Finset RepoKey) (L : Nat)
    (hclosed : ∀ k ∈ U, ∀ k' ∈ gitSuccs net k, k' ∈ U)
    (hlen : ∀ k ∈ U, (fetchLines net k.1 k.2).length ≤ L)
    (url : String) (c : Option String) (hroot : (url, c) ∈ U)
    (hurl : (url == "") = false) :
    (∀ f₁ f₂, U.card * (L + 2) ≤ f₁ → U.card * (L + 2) ≤ f₂ →
      processRepo net f₁ url c St.init = processRepo net f₂ url c St.init)
    ∧ (∀ f, (processRepo net f url c St.init).visited.Nodup)
    ∧ (∀ f, U.card * (L + 2) < f →
        (url, c) ∈ (processRepo net f url c St.init).visited
        ∧ ∀ k ∈ (processRepo net f url c St.init).visited,
            ∀ k' ∈ gitSuccs net k, k' ∈ (processRepo net f url c St.init).visited) := by
  refine ⟨?_, ?_, ?_⟩
  · intro f₁ f₂ h₁ h₂
    exact (stabilize net U L hclosed hlen U.card).1 url c St.init f₁ f₂ hroot
      (by rw [unvisitedCard_init]) h₁ h₂
  · intro f
    have h := ((processMaster net f).1 url c St.init).2
      ⟨by simp [St.init], by simp [St.init], by simp [St.init]⟩
    exact h.1
  · intro f hf
    have h := (traversalComplete net U L hclosed hlen U.card).1 url c St.init f
      hroot hurl (by rw [unvisitedCard_init]) hf
    exact ⟨h.1, fun k hk k' hk' => h.2 k hk (by simp [St.init]) k' hk'⟩

/-- Witness for C3 on the concrete two-repository cycle. -/
theorem traversal_cycle_safety_witness :
    (∀ k ∈ cycleU, ∀ k' ∈ gitSuccs demoNetCycle k, k' ∈ cycleU)
    ∧ (∀ k ∈ cycleU, (fetchLines demoNetCycle k.1 k.2).length ≤ 1)
    ∧ processRepo demoNetCycle 6 "https://github.com/x/a" (some "m") St.init =
        processRepo demoNetCycle 7 "https://github.com/x/a" (some "m") St.init
    ∧ (processRepo demoNetCycle 9 "https://github.com/x/a" (some "m") St.init).visited.Nodup
    ∧ (("https://github.com/x/a", some "m") ∈
        (processRepo demoNetCycle 7 "https://github.com/x/a" (some "m") St.init).visited
       ∧ ∀ k ∈ (processRepo demoNetCycle 7 "https://github.com/x/a" (some "m") St.init).visited,
           ∀ k' ∈ gitSuccs demoNetCycle k,
             k' ∈ (processRepo demoNetCycle 7 "https://github.com/x/a" (some "m") St.init).visited) := by
  have h := traversal_cycle_safety demoNetCycle cycleU 1 (by decide) (by decide)
    "https://github.com/x/a" (some "m") (by decide) (by decide)
  exact ⟨by decide, by decide, h.1 6 7 (by decide) (by decide), h.2.1 9,
    h.2.2 7 (by decide)⟩

/-! ## C5 -/

/-- C5: consolidation is deterministic and its output is canonical: two
runs on the same input with the network responses held fixed produce
identical results; any output file written is sorted; and the emitted lines
are invariant under reordering of the dependency-dictionary entries (so no
iteration-order effect can reach the file). -/
theorem consolidation_deterministic (net : Net) (fuel : Nat)
    (input : Except String Json) (d₁ d₂ : List (String × SpecSet))
    (hperm : d₁.Perm d₂) :
    consolidateRequirements net fuel input = consolidateRequirements net fuel input
    ∧ (∀ out, (consolidateRequirements net fuel input).output = some out →
        out.Sorted strLeP)
    ∧ emitLines d₁ = emitLines d₂ := by
  refine ⟨rfl, ?_, ?_⟩
  · intro out hout
    have hex : ∃ d, out = emitLines d := by
      rcases input with e | j
      · exact Option.noConfusion hout
      · rcases j with _ | b | nn | s | elems | fields
        · exact Option.noConfusion hout
        · exact Option.noConfusion hout
        · exact Option.noConfusion hout
        · exact Option.noConfusion hout
        · have hred : consolidateRequirements net fuel (.ok (.arr elems)) =
              match elems.foldlM (fun st e => processEntry net fuel e st) St.init with
              | .error _ => ⟨1, St.init, none⟩
              | .ok st => ⟨0, st, some (emitLines st.deps)⟩ := rfl
          rw [hred] at hout
          rcases hfold : elems.foldlM (fun st e => processEntry net fuel e st) St.init with
            err | stf
          · rw [hfold] at hout
            exact Option.noConfusion hout
          · rw [hfold] at hout
            exact ⟨stf.deps, (Option.some.inj hout).symm⟩
        · exact Option.noConfusion hout
    obtain ⟨d, rfl⟩ := hex
    exact sortedStrings_sorted _
  · unfold emitLines
    exact sortedStrings_congr (hperm.map emitLine)

/-- Witness for C5 with a concrete permuted dictionary. -/
theorem consolidation_deterministic_witness :
    (consolidateRequirements trivNet 3 (.error "unreadable") =
      consolidateRequirements trivNet 3 (.error "unreadable"))
    ∧ (∀ out, (consolidateRequirements trivNet 3 (.error "unreadable")).output = some out →
        out.Sorted strLeP)
    ∧ emitLines [("a", ([] : SpecSet)), ("b", [])] =
        emitLines [("b", ([] : SpecSet)), ("a", [])] :=
  consolidation_deterministic trivNet 3 (.error "unreadable") _ _
    (List.Perm.swap ("b", []) ("a", []) [])

/-! ## C6 -/

theorem toFinset_specAnd (s t : SpecSet) :
    (specAnd s t).toFinset = s.toFinset ∪ t.toFinset := by
  ext a
  simp only [specAnd, List.toFinset_append, Finset.mem_union, List.mem_toFinset,
    List.mem_filter, decide_eq_true_eq]
  by_cases h : a ∈ s <;> simp [h]

theorem depFinMap_applyReq (d : List (String × SpecSet)) (r : Req) :
    depFinMap (applyReq d r) = finStep (depFinMap d) r := by
  funext name
  simp only [depFinMap, finStep]
  by_cases h : name = r.name
  · rw [if_pos h]
    subst h
    cases hl : lookupDep d r.name with
    | none =>
      have happ : applyReq d r = setDep d r.name r.specs := by
        unfold applyReq mergeDep
        rw [hl]
      rw [happ, lookupDep_setDep_self]
      simp
    | some ex =>
      have happ : applyReq d r = setDep d r.name (specAnd ex r.specs) := by
        unfold applyReq mergeDep
        rw [hl]
      rw [happ, lookupDep_setDep_self]
      simp [toFinset_specAnd]
  · rw [if_neg h]
    have happ : applyReq d r = setDep d r.name
        (match lookupDep d r.name with
         | some ex => specAnd ex r.specs
         | none => r.specs) := by
      unfold applyReq mergeDep
      cases lookupDep d r.name <;> rfl
    rw [happ, lookupDep_setDep_other _ _ _ _ (fun hh => h hh.symm)]

theorem finStep_comm (m : String → Option (Finset SpecAtom)) (r₁ r₂ : Req) :
    finStep (finStep m r₁) r₂ = finStep (finStep m r₂) r₁ := by
  funext name
  by_cases h2 : name = r₂.name <;> by_cases h1 : name = r₁.name
  · subst h2
    simp only [finStep, if_pos rfl, if_pos h1, ← h1]
    cases hm : m r₂.name with
    | none => simp [Finset.union_comm]
    | some e => simp [Finset.union_comm, Finset.union_left_comm, Finset.union_assoc]
  · subst h2
    have h1' : ¬ r₂.name = r₁.name := h1
    simp only [finStep, if_pos rfl, if_neg h1']
  · subst h1
    have h2' : ¬ r₁.name = r₂.name := h2
    simp only [finStep, if_pos rfl, if_neg h2']
  · simp only [finStep, if_neg h1, if_neg h2]

theorem depFinMap_foldl (reqs : List Req) (d : List (String × SpecSet)) :
    depFinMap (reqs.foldl applyReq d) = reqs.foldl finStep (depFinMap d) := by
  induction reqs generalizing d with
  | nil => rfl
  | cons r rs ih =>
    rw [List.foldl_cons, List.foldl_cons, ← depFinMap_applyReq]
    exact ih _

/-- C6: the final constraint mapping — package name to recorded specifier
set — does not depend on the order in which the parsed requirement lines
are merged into the dictionary: merging by specifier-set union is
commutative, so any two traversal orders of the same lines denote the same
mapping. -/
theorem constraint_merge_order_independent (reqs₁ reqs₂ : List Req)
    (hperm : reqs₁.Perm reqs₂) :
    depFinMap (reqs₁.foldl applyReq []) = depFinMap (reqs₂.foldl applyReq []) := by
  rw [depFinMap_foldl, depFinMap_foldl]
  exact hperm.foldl_eq' (fun x _ y _ z => finStep_comm z x y) _

/-- Witness for C6 at two concrete orders of the same two lines. -/
theorem constraint_merge_order_independent_witness :
    depFinMap ([⟨"foo", [⟨Op.ge, "1.0"⟩]⟩, ⟨"foo", [⟨Op.lt, "2.0"⟩]⟩].foldl applyReq [])
      = depFinMap ([⟨"foo", [⟨Op.lt, "2.0"⟩]⟩, ⟨"foo", [⟨Op.ge, "1.0"⟩]⟩].foldl applyReq []) :=
  constraint_merge_order_independent _ _
    (List.Perm.swap (⟨"foo", [⟨Op.lt, "2.0"⟩]⟩ : Req) (⟨"foo", [⟨Op.ge, "1.0"⟩]⟩ : Req) [])

/-! ## C7 -/

theorem processEntry_ok_iff (net : Net) (fuel : Nat) (e : Json) (st : St) :
    (∃ st', processEntry net fuel e st = .ok st') ↔ badEntry e = false := by
  cases e with
  | null => simp [processEntry, badEntry]
  | bool b => simp [processEntry, badEntry]
  | num n => simp [processEntry, badEntry]
  | str s => simp [processEntry, badEntry]
  | arr xs => simp [processEntry, badEntry]
  | obj fields =>
    cases hc : (Json.getField fields "commit").getD (.str "") with
    | str c =>
      cases hr : (Json.getField fields "repo").getD .null with
      | str u =>
        by_cases ht : (Json.str u).truthy = true
        · simp [processEntry, badEntry, hc, hr, ht]
        · simp [processEntry, badEntry, hc, hr, ht]
      | null =>
        by_cases ht : (Json.null).truthy = true
        · simp [processEntry, badEntry, hc, hr, ht]
        · simp [processEntry, badEntry, hc, hr, ht]
      | bool b =>
        by_cases ht : (Json.bool b).truthy = true
        · simp [processEntry, badEntry, hc, hr, ht]
        · simp [processEntry, badEntry, hc, hr, ht]
      | num n =>
        by_cases ht : (Json.num n).truthy = true
        · simp [processEntry, badEntry, hc, hr, ht]
        · simp [processEntry, badEntry, hc, hr, ht]
      | arr xs =>
        by_cases ht : (Json.arr xs).truthy = true
        · simp [processEntry, badEntry, hc, hr, ht]
        · simp [processEntry, badEntry, hc, hr, ht]
      | obj fs =>
        by_cases ht : (Json.obj fs).truthy = true
        · simp [processEntry, badEntry, hc, hr, ht]
        · simp [processEntry, badEntry, hc, hr, ht]
    | null => simp [processEntry, badEntry, hc]
    | bool b => simp [processEntry, badEntry, hc]
    | num n => simp [processEntry, badEntry, hc]
    | arr xs => simp [processEntry, badEntry, hc]
    | obj fs => simp [processEntry, badEntry, hc]

theorem foldEntries_error_iff (net : Net) (fuel : Nat) :
    ∀ (l : List Json) (st : St),
      (∃ err, l.foldlM (fun st e => processEntry net fuel e st) st = .error err) ↔
        ∃ e ∈ l, badEntry e = true := by
  intro l
  induction l with
  | nil =>
    intro st
    simp only [List.foldlM]
    constructor
    · rintro ⟨err, herr⟩
      exact Except.noConfusion herr
    · rintro ⟨x, hx, _⟩
      exact absurd hx (by simp)
  | cons e es ih =>
    intro st
    rw [List.foldlM_cons]
    cases hpe : processEntry net fuel e st with
    | error err =>
      have hbad : badEntry e = true := by
        by_contra hb
        obtain ⟨st', hst'⟩ := (processEntry_ok_iff net fuel e st).mpr
          (Bool.eq_false_iff.mpr hb)
        rw [hpe] at hst'
        exact Except.noConfusion hst'
      constructor
      · intro _
        exact ⟨e, List.mem_cons_self _ _, hbad⟩
      · intro _
        exact ⟨err, by simp [Bind.bind, Except.bind]⟩
    | ok st1 =>
      have hgood : badEntry e = false :=
        (processEntry_ok_iff net fuel e st).mp ⟨st1, hpe⟩
      have hbind : (Except.ok st1 >>= fun st' =>
          es.foldlM (fun st e => processEntry net fuel e st) st') =
          es.foldlM (fun st e => processEntry net fuel e st) st1 := by
        simp [Bind.bind, Except.bind]
      rw [hbind]
      rw [ih st1]
      constructor
      · intro ⟨x, hx, hbx⟩
        exact ⟨x, List.mem_cons_of_mem _ hx, hbx⟩
      · rintro ⟨x, hx, hbx⟩
        rcases List.mem_cons.mp hx with rfl | hx'
        · rw [hgood] at hbx
          exact Bool.noConfusion hbx
        · exact ⟨x, hx', hbx⟩

/-- C7 counterexample: the input `[1]` is readable and is a list, yet the
process exits with status 1 — the loop raises an uncaught `AttributeError`
at `repo.get` on the non-dict element — refuting the claimed
"exit 0 on every run with a readable list input". -/
theorem exit_one_on_list_counterexample :
    (consolidateRequirements trivNet 3 (.ok (.arr [.num 1]))).exitCode = 1 := by
  decide

/-- C7 (amended): the process exits with status 1 exactly when the input is
unreadable, is not a list, or is a list containing an entry the loop
crashes on (a non-object element, an object whose `commit` value is not a
string, or one whose `repo` value is truthy but not a string); every other
run — fetch failures included — exits with status 0. -/
theorem exit_status_iff (net : Net) (fuel : Nat) (input : Except String Json) :
    (consolidateRequirements net fuel input).exitCode = 1 ↔ fatalInput input := by
  rcases input with e | j
  · simp [consolidateRequirements, fatalInput]
  · rcases j with _ | b | n | s | elems | fields
    · simp [consolidateRequirements, fatalInput]
    · simp [consolidateRequirements, fatalInput]
    · simp [consolidateRequirements, fatalInput]
    · simp [consolidateRequirements, fatalInput]
    · have hred : consolidateRequirements net fuel (.ok (.arr elems)) =
          match elems.foldlM (fun st e => processEntry net fuel e st) St.init with
          | .error _ => ⟨1, St.init, none⟩
          | .ok st => ⟨0, st, some (emitLines st.deps)⟩ := rfl
      rw [hred]
      cases hfold : elems.foldlM (fun st e => processEntry net fuel e st) St.init with
      | error err =>
        have hex : ∃ e ∈ elems, badEntry e = true :=
          (foldEntries_error_iff net fuel elems St.init).mp ⟨err, hfold⟩
        simpa [fatalInput] using hex
      | ok stf =>
        have hnoex : ¬ ∃ e ∈ elems, badEntry e = true := by
          intro hex
          obtain ⟨err, herr⟩ := (foldEntries_error_iff net fuel elems St.init).mpr hex
          rw [hfold] at herr
          exact Except.noConfusion herr
        simpa [fatalInput] using hnoex
    · simp [consolidateRequirements, fatalInput]

/-! ## C9 -/

/-- C9: a repository reference with an unset (falsy) commit is resolved by
querying the GitHub repository-metadata API: on a 200 response the
response's `default_branch` field (with `main` as the dictionary-lookup
default) becomes the commit; when the query fails — a network exception or
a non-200 status — a diagnostic is logged, the literal fallback `main` is
used, and the run does not abort: the traversal goes on to request the
manifest at `main`. -/
theorem default_branch_resolution (net : Net) (url : String) (c : Option String)
    (st : St) (f : Nat)
    (hfalsy : commitFalsy c = true)
    (hvalid : 2 ≤ (pathParts url).length) :
    (∀ r, net.api (apiUrlOf url) = some r → r.status = 200 →
      (getDefaultBranch net url).1 = some (r.defaultBranch.getD "main"))
    ∧ (apiFailed net url →
        (getDefaultBranch net url).1 = some "main"
        ∧ (getDefaultBranch net url).2 ≠ []
        ∧ resolveCommit net url c = some "main"
        ∧ ((url == "") = false → (url, c) ∉ st.visited →
            rawUrlOf url "main" ∈ (processRepo net (f + 1) url c st).rawFetches)) := by
  have hnotlt : ¬ (pathParts url).length < 2 := by omega
  constructor
  · intro r hr h200
    unfold getDefaultBranch
    rw [if_neg hnotlt, hr]
    simp [h200]
  · intro hfail
    unfold apiFailed at hfail
    have hmain : (getDefaultBranch net url).1 = some "main"
        ∧ (getDefaultBranch net url).2 ≠ [] := by
      unfold getDefaultBranch
      rw [if_neg hnotlt]
      cases happi : net.api (apiUrlOf url) with
      | none => exact ⟨rfl, by simp⟩
      | some r =>
        rw [happi] at hfail
        have hne : r.status ≠ 200 := hfail
        exact ⟨by simp [hne], by simp [hne]⟩
    have hres : resolveCommit net url c = some "main" := by
      unfold resolveCommit
      rw [if_pos hfalsy, hmain.1]
      rfl
    refine ⟨hmain.1, hmain.2, hres, ?_⟩
    intro hurl hvis
    rw [processRepo_succ]
    have hspec := repoStep_spec net url c st
    rcases hstep : repoStep net url c st with st' | ⟨lines, st'⟩
    · rw [hstep] at hspec
      exact hspec.2.2.2.2 "main" hurl hvis hres
    · rw [hstep] at hspec
      exact ((processMaster net f).2.1 lines st').1.2.2
        (hspec.2.2.2.2.2.2 "main" hres)

/-- Witness for C9: the API always fails, the commit is empty, and the
manifest at `main` is still requested. -/
theorem default_branch_resolution_witness :
    commitFalsy (some "") = true
    ∧ 2 ≤ (pathParts "https://github.com/a/b").length
    ∧ apiFailed trivNet "https://github.com/a/b"
    ∧ ((getDefaultBranch trivNet "https://github.com/a/b").1 = some "main"
      ∧ (getDefaultBranch trivNet "https://github.com/a/b").2 ≠ []
      ∧ resolveCommit trivNet "https://github.com/a/b" (some "") = some "main"
      ∧ (("https://github.com/a/b" == "") = false →
          ("https://github.com/a/b", some "") ∉ St.init.visited →
          rawUrlOf "https://github.com/a/b" "main" ∈
            (processRepo trivNet (1 + 1) "https://github.com/a/b" (some "") St.init).rawFetches)) :=
  ⟨by decide, by decide, by decide,
   (default_branch_resolution trivNet "https://github.com/a/b" (some "") St.init 1
     (by decide) (by decide)).2 (by decide)⟩

end Consolidate
